import Mathlib

/-!
Verification development for the vue-element-plus-admin repository:
a shallow embedding of the dynamic-route generation pipeline
(`src/utils/routerHelper.ts`), the Axios interceptors
(`src/axios/config.ts`, `src/axios/service.ts`), the Pinia `user` and
`tagsView` stores, and the browser-storage helper
(`src/hooks/web/useStorage.ts`), together with proofs of the spec's
claims about them.

JavaScript strings are modelled as `List Char` (`JStr`) so that every
string primitive is structurally recursive and computable by the kernel.
-/

namespace VEPA

/-- JS strings, modelled as lists of characters. -/
abbrev JStr := List Char

/-- Coerce a Lean string literal into the JS string model. -/
def jstr (s : String) : JStr := s.toList

/-- The whitespace characters removed by `String.prototype.trim` (the
common ones; exotic Unicode spaces are not modelled). -/
def isJsWhitespace (c : Char) : Bool :=
  c = ' ' || c = '\t' || c = '\n' || c = '\r'

/-- `s.trim()`. -/
def jsTrim (s : JStr) : JStr :=
  ((s.dropWhile isJsWhitespace).reverse.dropWhile isJsWhitespace).reverse

/-- `s.startsWith(pre)`. -/
def jsStartsWith (s pre : JStr) : Bool := pre.isPrefixOf s

/-- `s.includes(sub)`: some suffix of `s` has `sub` as a prefix. -/
def jsIncludes : JStr → JStr → Bool
  | [], sub => sub.isEmpty
  | c :: rest, sub => sub.isPrefixOf (c :: rest) || jsIncludes rest sub

/-- `str.replace(/\/\//g, '/')` as used by `pathResolve`
(`src/utils/routerHelper.ts` line 224): every occurrence of `//` is
replaced by `/`, scanning left to right without rescanning the output. -/
def collapseDoubleSlash : JStr → JStr
  | '/' :: '/' :: rest => '/' :: collapseDoubleSlash rest
  | c :: rest => c :: collapseDoubleSlash rest
  | [] => []

/-- `url.replace('/mock', '')` as used by the request interceptor
(`src/axios/service.ts` line 62): a string (not regex) pattern, so only
the first occurrence of `/mock` is removed. -/
def stripFirstMock : JStr → JStr
  | '/' :: 'm' :: 'o' :: 'c' :: 'k' :: rest => rest
  | c :: rest => c :: stripFirstMock rest
  | [] => []

/-- Model of `isUrl` (`src/utils/is.ts`): `new URL(path)` succeeds.  The
platform URL constructor is modelled as: the string begins with a
non-empty all-letter scheme followed by a colon. -/
def isUrl (path : JStr) : Bool :=
  let pre := path.takeWhile (fun c => c ≠ ':')
  pre.length > 0 && pre.length < path.length && pre.all Char.isAlpha

/-- `pathResolve` (`src/utils/routerHelper.ts` lines 216-225). -/
def pathResolve (parentPath path : JStr) : JStr :=
  if isUrl path then path
  else
    let childPath := if jsStartsWith path (jstr "/") || path = [] then path
                     else '/' :: path
    jsTrim (collapseDoubleSlash (parentPath ++ childPath))

/-- Custom route meta (`types/router.d.ts`, `RouteMetaCustom`).
JS `undefined` boolean flags behave as `false`; optional string entries
are modelled with `Option`.  `followRoute` is one of the arbitrary extra
keys the interface allows (`Record<string | number | symbol, unknown>`)
that `generateRoutesByFrontEnd` consults. -/
structure RouteMeta where
  hidden : Bool := false
  alwaysShow : Bool := false
  title : Option JStr := none
  icon : Option JStr := none
  noCache : Bool := false
  breadcrumb : Bool := false
  affix : Bool := false
  activeMenu : Option JStr := none
  noTagsView : Bool := false
  canTo : Bool := false
  permission : List JStr := []
  followRoute : Option JStr := none
  deriving Repr, DecidableEq

/-- A route component reference (`types/router.d.ts`, `Component | string`):
the `Layout` component, the `ParentLayout` component, or a dynamically
imported view module identified by its `import.meta.glob` key. -/
inductive RouteComponent where
  | layout
  | parentLayout
  | viewModule (key : JStr)
  deriving Repr, DecidableEq

/-- `AppRouteRecordRaw` (`types/router.d.ts`): path, name, optional
redirect, meta, optional component and optional children.  The `meta`
field is kept optional because the helper code guards it
(`route.meta ?? {}`). -/
inductive AppRouteRecordRaw where
  | mk (path : JStr) (name : JStr) (redirect : Option JStr)
      (meta : Option RouteMeta) (component : Option RouteComponent)
      (children : Option (List AppRouteRecordRaw)) : AppRouteRecordRaw
  deriving Repr

namespace AppRouteRecordRaw

def path : AppRouteRecordRaw → JStr
  | .mk p _ _ _ _ _ => p

def name : AppRouteRecordRaw → JStr
  | .mk _ n _ _ _ _ => n

def redirect : AppRouteRecordRaw → Option JStr
  | .mk _ _ r _ _ _ => r

def meta : AppRouteRecordRaw → Option RouteMeta
  | .mk _ _ _ m _ _ => m

def component : AppRouteRecordRaw → Option RouteComponent
  | .mk _ _ _ _ c _ => c

def children : AppRouteRecordRaw → Option (List AppRouteRecordRaw)
  | .mk _ _ _ _ _ cs => cs

/-- Replace the `children` field (used to model in-place mutation of
`route.children` and lodash `omit(item, 'children')`). -/
def withChildren (cs : Option (List AppRouteRecordRaw)) :
    AppRouteRecordRaw → AppRouteRecordRaw
  | .mk p n r m c _ => .mk p n r m c cs

@[simp] theorem path_mk (p n r m c cs) :
    (AppRouteRecordRaw.mk p n r m c cs).path = p := rfl
@[simp] theorem name_mk (p n r m c cs) :
    (AppRouteRecordRaw.mk p n r m c cs).name = n := rfl
@[simp] theorem redirect_mk (p n r m c cs) :
    (AppRouteRecordRaw.mk p n r m c cs).redirect = r := rfl
@[simp] theorem meta_mk (p n r m c cs) :
    (AppRouteRecordRaw.mk p n r m c cs).meta = m := rfl
@[simp] theorem component_mk (p n r m c cs) :
    (AppRouteRecordRaw.mk p n r m c cs).component = c := rfl
@[simp] theorem children_mk (p n r m c cs) :
    (AppRouteRecordRaw.mk p n r m c cs).children = cs := rfl
@[simp] theorem withChildren_mk (p n r m c cs cs2) :
    (AppRouteRecordRaw.mk p n r m c cs).withChildren cs2 =
      AppRouteRecordRaw.mk p n r m c cs2 := rfl
@[simp] theorem children_withChildren (r : AppRouteRecordRaw) (cs2) :
    (r.withChildren cs2).children = cs2 := by cases r; rfl

end AppRouteRecordRaw

/-! ## `generateRoutesByFrontEnd` (`src/utils/routerHelper.ts` lines 98-159)

The Lean functions take the route list as the last argument (the source
takes it first) so the nested structural recursion is visible to Lean. -/

/-- The `onlyOneChild` computation (lines 117-126): when the route has
exactly one child and `meta.alwaysShow` is unset, the single child's
path — kept verbatim when it is a URL, otherwise resolved against
`pathResolve(basePath, route.path)`. -/
def feOnlyOneChild (basePath : JStr) (route : AppRouteRecordRaw)
    (meta : RouteMeta) : Option JStr :=
  match route.children with
  | some [c] =>
    if !meta.alwaysShow then
      some (if isUrl c.path then c.path
            else pathResolve (pathResolve basePath route.path) c.path)
    else none
  | _ => none

/-- One iteration of the key loop (lines 129-141): does `item` match the
route?  URL keys are first compared against `onlyOneChild` and the raw
`route.path`; otherwise the trimmed `routePath`
(`onlyOneChild ?? pathResolve(basePath, route.path)`) and
`meta.followRoute` are compared. -/
def feMatchKey (basePath : JStr) (route : AppRouteRecordRaw) (meta : RouteMeta)
    (item : JStr) : Bool :=
  let onlyOneChild := feOnlyOneChild basePath route meta
  if isUrl item && (onlyOneChild == some item || route.path == item) then true
  else
    let routePath := jsTrim (onlyOneChild.getD (pathResolve basePath route.path))
    routePath == item || meta.followRoute == some item

/-- The whole key loop: `data` starts as `null` and is overwritten with a
copy of the route (`Object.assign({}, route)`, value-identical) each time
a key matches. -/
def feData (keys : List JStr) (basePath : JStr) (route : AppRouteRecordRaw)
    (meta : RouteMeta) : Option AppRouteRecordRaw :=
  keys.foldl
    (fun d item => if feMatchKey basePath route meta item then some route else d)
    none

/-- `generateRoutesByFrontEnd(routes, keys, basePath)`.  When the key
loop produced a `data` copy, the source sets `data.children` to the
recursively generated children (when the route has a children array) and
pushes `data`; the pushed value is spelled out as the route constructor
with the children replaced. -/
def generateRoutesByFrontEnd (keys : List JStr) (basePath : JStr) :
    List AppRouteRecordRaw → List AppRouteRecordRaw
  | [] => []
  | (AppRouteRecordRaw.mk p n r m c cs) :: rest =>
    let route := AppRouteRecordRaw.mk p n r m c cs
    let meta := m.getD {}
    if meta.hidden && !meta.canTo then generateRoutesByFrontEnd keys basePath rest
    else
      match feData keys basePath route meta with
      | none => generateRoutesByFrontEnd keys basePath rest
      | some d =>
        (match cs with
         | some l =>
           AppRouteRecordRaw.mk p n r m c
             (some (generateRoutesByFrontEnd keys (pathResolve basePath p) l))
         | none => d) :: generateRoutesByFrontEnd keys basePath rest

/-- The retention test of (amended) claim C2, written as one boolean
disjunction: a key retains the route when it is a URL equal to the
single-child path or to the raw route path, or when it equals the
trimmed candidate resolved path (the single child's when the route has
exactly one child and `alwaysShow` is unset, else the route's own path
resolved against the base), or when it equals `meta.followRoute`. -/
def feSpecMatchKey (basePath : JStr) (route : AppRouteRecordRaw)
    (meta : RouteMeta) (item : JStr) : Bool :=
  let onlyOneChild := feOnlyOneChild basePath route meta
  (isUrl item && (onlyOneChild == some item || route.path == item)) ||
    jsTrim (onlyOneChild.getD (pathResolve basePath route.path)) == item ||
    meta.followRoute == some item

/-- The (amended) claim-C2 description of front-end route generation: a
node with `meta.hidden` set and `meta.canTo` unset is always dropped; a
node some key retains (`feSpecMatchKey`) is kept with its meta and path
unchanged and its children filtered recursively under the resolved base
path; a node no key retains is dropped; nothing else happens. -/
def generateRoutesByFrontEndSpec (keys : List JStr) (basePath : JStr) :
    List AppRouteRecordRaw → List AppRouteRecordRaw
  | [] => []
  | (AppRouteRecordRaw.mk p n r m c cs) :: rest =>
    let route := AppRouteRecordRaw.mk p n r m c cs
    let meta := m.getD {}
    if meta.hidden && !meta.canTo then
      generateRoutesByFrontEndSpec keys basePath rest
    else if keys.any (feSpecMatchKey basePath route meta) then
      (match cs with
       | some l =>
         AppRouteRecordRaw.mk p n r m c
           (some (generateRoutesByFrontEndSpec keys (pathResolve basePath p) l))
       | none => route) :: generateRoutesByFrontEndSpec keys basePath rest
    else generateRoutesByFrontEndSpec keys basePath rest

/-! ## `generateRoutesByServer` (`src/utils/routerHelper.ts` lines 166-208) -/

/-- `AppCustomRouteRecordRaw` (`types/router.d.ts`): a server-supplied
route record whose `component` is a string identifier.  `redirect` is
declared `string` but only ever passed through verbatim, so it is
modelled optional to cover server payloads that omit it. -/
inductive AppCustomRouteRecordRaw where
  | mk (path : JStr) (name : JStr) (redirect : Option JStr) (meta : RouteMeta)
      (component : JStr)
      (children : Option (List AppCustomRouteRecordRaw)) : AppCustomRouteRecordRaw
  deriving Repr

namespace AppCustomRouteRecordRaw

def path : AppCustomRouteRecordRaw → JStr
  | .mk p _ _ _ _ _ => p

def name : AppCustomRouteRecordRaw → JStr
  | .mk _ n _ _ _ _ => n

def redirect : AppCustomRouteRecordRaw → Option JStr
  | .mk _ _ r _ _ _ => r

def meta : AppCustomRouteRecordRaw → RouteMeta
  | .mk _ _ _ m _ _ => m

def component : AppCustomRouteRecordRaw → JStr
  | .mk _ _ _ _ c _ => c

def children : AppCustomRouteRecordRaw → Option (List AppCustomRouteRecordRaw)
  | .mk _ _ _ _ _ cs => cs

@[simp] theorem custom_path_mk (p n r m c cs) :
    (AppCustomRouteRecordRaw.mk p n r m c cs).path = p := rfl
@[simp] theorem custom_name_mk (p n r m c cs) :
    (AppCustomRouteRecordRaw.mk p n r m c cs).name = n := rfl
@[simp] theorem custom_redirect_mk (p n r m c cs) :
    (AppCustomRouteRecordRaw.mk p n r m c cs).redirect = r := rfl
@[simp] theorem custom_meta_mk (p n r m c cs) :
    (AppCustomRouteRecordRaw.mk p n r m c cs).meta = m := rfl
@[simp] theorem custom_component_mk (p n r m c cs) :
    (AppCustomRouteRecordRaw.mk p n r m c cs).component = c := rfl
@[simp] theorem custom_children_mk (p n r m c cs) :
    (AppCustomRouteRecordRaw.mk p n r m c cs).children = cs := rfl

end AppCustomRouteRecordRaw

/-- Lookup in the `import.meta.glob('../views/**/*.{vue,tsx}')` module
map, modelled by the list of existing module keys:
`modules['../' + component + '.vue'] || modules['../' + component + '.tsx']`. -/
def lookupViewModule (modules : List JStr) (component : JStr) :
    Option RouteComponent :=
  if (jstr "../" ++ component ++ jstr ".vue") ∈ modules then
    some (.viewModule (jstr "../" ++ component ++ jstr ".vue"))
  else if (jstr "../" ++ component ++ jstr ".tsx") ∈ modules then
    some (.viewModule (jstr "../" ++ component ++ jstr ".tsx"))
  else none

/-- Component resolution inside `generateRoutesByServer` (lines 181-194):
when neither module file exists and the identifier contains no `#`, an
error is logged and `data.component` is left unset; otherwise `'#'` maps
to `Layout`, an identifier containing `'##'` maps to `ParentLayout`, and
anything else maps to the found module (possibly still unset). -/
def resolveServerComponent (modules : List JStr) (component : JStr) :
    Option RouteComponent :=
  let comModule := lookupViewModule modules component
  if comModule.isNone && !jsIncludes component (jstr "#") then none
  else if component == jstr "#" then some .layout
  else if jsIncludes component (jstr "##") then some .parentLayout
  else comModule

/-- `generateRoutesByServer(routes)`; the module map is a parameter. -/
def generateRoutesByServer (modules : List JStr) :
    List AppCustomRouteRecordRaw → List AppRouteRecordRaw
  | [] => []
  | (AppCustomRouteRecordRaw.mk p n r m comp cs) :: rest =>
    let dataComponent :=
      if comp.isEmpty then none else resolveServerComponent modules comp
    let dataChildren :=
      match cs with
      | some l => some (generateRoutesByServer modules l)
      | none => none
    AppRouteRecordRaw.mk p n r (some m) dataComponent dataChildren ::
      generateRoutesByServer modules rest

/-! ## `flatMultiLevelRoutes` (`src/utils/routerHelper.ts` lines 232-347) -/

/-- `child.children?.length` as a boolean. -/
def hasChildren (r : AppRouteRecordRaw) : Bool := !(r.children.getD []).isEmpty

/-- `isMultipleRoute` (lines 259-285): the route has a non-empty children
array in which some child itself has a non-empty children array. -/
def isMultipleRoute (route : AppRouteRecordRaw) : Bool :=
  match route.children with
  | none => false
  | some children => !children.isEmpty && children.any hasChildren

/-- Modelled from vue-router (external library):
`createRouter({routes: [route]}).getRoutes()` yields one normalized
record per node of the route tree, depth first, each record carrying its
path resolved against its parent chain (path resolution is modelled with
the repository's own `pathResolve`) and keeping its raw children. -/
def collectNormalizedRoutes (basePath : JStr) :
    List AppRouteRecordRaw → List AppRouteRecordRaw
  | [] => []
  | (AppRouteRecordRaw.mk p n r m c (some l)) :: rest =>
    AppRouteRecordRaw.mk (pathResolve basePath p) n r m c (some l) ::
      (collectNormalizedRoutes (pathResolve basePath p) l ++
        collectNormalizedRoutes basePath rest)
  | (AppRouteRecordRaw.mk p n r m c none) :: rest =>
    AppRouteRecordRaw.mk (pathResolve basePath p) n r m c none ::
      collectNormalizedRoutes basePath rest

/-- `addToChildren(routes, children, routeModule)` (lines 315-347), with
`routeModule.children` threaded as the accumulator `acc`: every child is
looked up by name among the normalized records; a found record is
appended to `acc` unless `acc` already holds a record of that name, and
the walk recurses into the child's own children.  (The JS loop iterates
the very array it appends to; the model iterates the original list,
which adds the same set of records because every appended record's name
is already present when the loop reaches it.) -/
def addToChildren (routes : List AppRouteRecordRaw) :
    List AppRouteRecordRaw → List AppRouteRecordRaw → List AppRouteRecordRaw
  | [], acc => acc
  | (AppRouteRecordRaw.mk _ cname _ _ _ ccs) :: rest, acc =>
    match routes.find? (fun item => item.name == cname) with
    | none => addToChildren routes rest acc
    | some route =>
      let acc1 := if (acc.find? (fun item => item.name == route.name)).isSome
                  then acc else acc ++ [route]
      let acc2 := match ccs with
        | some l => if !l.isEmpty then addToChildren routes l acc1 else acc1
        | none => acc1
      addToChildren routes rest acc2

/-- lodash `omit(item, 'children')`. -/
def omitChildren (r : AppRouteRecordRaw) : AppRouteRecordRaw :=
  r.withChildren none

/-- `promoteRouteLevel` (lines 291-307): gather the normalized records of
the whole tree, graft every descendant found by name onto the route's
direct children, then strip the `children` key from each child. -/
def promoteRouteLevel (route : AppRouteRecordRaw) : AppRouteRecordRaw :=
  let rs := collectNormalizedRoutes (jstr "/") [route]
  match route.children with
  | none => route
  | some l => route.withChildren (some ((addToChildren rs l l).map omitChildren))

/-- `flatMultiLevelRoutes` (lines 232-252): `cloneDeep` plus in-place
promotion of every multi-level route becomes a pure map. -/
def flatMultiLevelRoutes (routes : List AppRouteRecordRaw) :
    List AppRouteRecordRaw :=
  routes.map
    (fun route => if isMultipleRoute route then promoteRouteLevel route else route)

/-! ## The `tagsView` store (`src/store/modules/tagsView.ts`) -/

/-- A visited view (`RouteLocationNormalizedLoaded` as the store uses it):
path, name, meta, plus the extra top-level `title` property that
`addVisitedView` writes onto its copy. -/
structure TagView where
  path : JStr
  name : JStr
  meta : RouteMeta := {}
  title : Option JStr := none
  deriving Repr, DecidableEq

/-- `TagsViewState` (lines 38-45): the visited views, the cached view
names (`Set<string>`, modelled as an insertion-ordered duplicate-free
list) and the selected tag. -/
structure TagsViewState where
  visitedViews : List TagView := []
  cachedViews : List JStr := []
  selectedTag : Option TagView := none
  deriving Repr, DecidableEq

/-- `view.meta?.title || 'no-name'` (JS falsiness: a missing and an empty
title both fall back). -/
def titleOrNoName : Option JStr → JStr
  | some t => if t.isEmpty then jstr "no-name" else t
  | none => jstr "no-name"

/-- `addVisitedView` (lines 91-102). -/
def addVisitedView (s : TagsViewState) (view : TagView) : TagsViewState :=
  if s.visitedViews.any (fun v => v.path == view.path) then s
  else if view.meta.noTagsView then s
  else
    { s with visitedViews := s.visitedViews ++
        [{ view with title := some (titleOrNoName view.meta.title) }] }

/-- The cache set rebuilt by `addCachedView` (lines 107-118): the names
of the visited views whose meta does not set `noCache`, first occurrence
kept. -/
def cacheNames (views : List TagView) : List JStr :=
  views.foldl
    (fun acc v =>
      if v.meta.noCache then acc
      else if v.name ∈ acc then acc else acc ++ [v.name])
    []

/-- `addCachedView` (lines 106-123).  The JS code keeps the old set when
the sorted joined strings coincide; both sides being duplicate-free sets,
that comparison is permutation equality. -/
def addCachedView (s : TagsViewState) : TagsViewState :=
  let cacheMap := cacheNames s.visitedViews
  if s.cachedViews.Perm cacheMap then s
  else { s with cachedViews := cacheMap }

/-- `delVisitedView` (lines 136-145): remove the first visited view with
the given path. -/
def delVisitedView (view : TagView) (s : TagsViewState) : TagsViewState :=
  { s with visitedViews := s.visitedViews.eraseP (fun v => v.path == view.path) }

/-- `delView` (lines 128-131). -/
def delView (view : TagView) (s : TagsViewState) : TagsViewState :=
  addCachedView (delVisitedView view s)

/-- `addView` (lines 83-86). -/
def addView (view : TagView) (s : TagsViewState) : TagsViewState :=
  addCachedView (addVisitedView s view)

/-- `delCachedView` (lines 149-156); the current route's name is a
parameter. -/
def delCachedView (currentName : JStr) (s : TagsViewState) : TagsViewState :=
  match s.cachedViews.findIdx? (fun v => v == currentName) with
  | some i => { s with cachedViews := s.cachedViews.eraseIdx i }
  | none => s

/-- The user info record (`src/api/login/types.ts`, `UserType`). -/
structure UserType where
  username : JStr
  password : JStr
  role : JStr
  roleId : JStr
  deriving Repr, DecidableEq

/-- `delAllVisitedViews` (lines 167-174): with a logged-in user the affix
tags survive, otherwise everything goes. -/
def delAllVisitedViews (userInfo : Option UserType) (s : TagsViewState) :
    TagsViewState :=
  { s with visitedViews :=
      if userInfo.isSome then s.visitedViews.filter (fun tag => tag.meta.affix)
      else [] }

/-- `delAllViews` (lines 160-163). -/
def delAllViews (userInfo : Option UserType) (s : TagsViewState) : TagsViewState :=
  addCachedView (delAllVisitedViews userInfo s)

/-- `delOthersVisitedViews` (lines 187-192). -/
def delOthersVisitedViews (view : TagView) (s : TagsViewState) : TagsViewState :=
  { s with visitedViews :=
      s.visitedViews.filter (fun v => v.meta.affix || v.path == view.path) }

/-- `delOthersViews` (lines 179-182). -/
def delOthersViews (view : TagView) (s : TagsViewState) : TagsViewState :=
  addCachedView (delOthersVisitedViews view s)

/-- `delLeftViews` (lines 197-209): when the view is present, keep the
affix tags, the view itself and everything to its right. -/
def delLeftViews (view : TagView) (s : TagsViewState) : TagsViewState :=
  match s.visitedViews.findIdx? (fun v => v.path == view.path) with
  | some index =>
    addCachedView
      { s with visitedViews :=
          ((s.visitedViews.enum.filter
            (fun q => q.2.meta.affix || q.2.path == view.path || q.1 > index)).map
            Prod.snd) }
  | none => s

/-- `delRightViews` (lines 214-226). -/
def delRightViews (view : TagView) (s : TagsViewState) : TagsViewState :=
  match s.visitedViews.findIdx? (fun v => v.path == view.path) with
  | some index =>
    addCachedView
      { s with visitedViews :=
          ((s.visitedViews.enum.filter
            (fun q => q.2.meta.affix || q.2.path == view.path || q.1 < index)).map
            Prod.snd) }
  | none => s

/-! ## The `user` store (`src/store/modules/user.ts`) -/

/-- `UserLoginType` (`src/api/login/types.ts`). -/
structure UserLoginType where
  username : JStr
  password : JStr
  deriving Repr, DecidableEq

/-- `roleRouters` holds either a list of path keys or a list of custom
route records (`string[] | AppCustomRouteRecordRaw[]`). -/
inductive RoleRouters where
  | keys (ks : List JStr)
  | records (rs : List AppCustomRouteRecordRaw)
  deriving Repr

/-- `UserState` (lines 41-54) with the initial values of `state()`
(lines 59-68) as defaults. -/
structure UserState where
  userInfo : Option UserType := none
  tokenKey : JStr := jstr "Authorization"
  token : JStr := jstr ""
  roleRouters : Option RoleRouters := none
  rememberMe : Bool := true
  loginInfo : Option UserLoginType := none
  deriving Repr

/-- The state `state()` produces (lines 59-68). -/
def initialUserState : UserState := {}

def setTokenKey (k : JStr) (u : UserState) : UserState := { u with tokenKey := k }
def setToken (t : JStr) (u : UserState) : UserState := { u with token := t }
def setUserInfo (i : Option UserType) (u : UserState) : UserState :=
  { u with userInfo := i }
def setRoleRouters (r : RoleRouters) (u : UserState) : UserState :=
  { u with roleRouters := some r }
def setRememberMe (b : Bool) (u : UserState) : UserState :=
  { u with rememberMe := b }
def setLoginInfo (i : Option UserLoginType) (u : UserState) : UserState :=
  { u with loginInfo := i }

/-- The client-side session: the user store, the tagsView store and the
router's current route path. -/
structure SessionState where
  user : UserState := {}
  tagsView : TagsViewState := {}
  currentRoute : JStr := jstr "/"
  deriving Repr

/-- `reset` (lines 133-140): delete all tag views (while the user info is
still present!), clear token, user info and role routers (the JS empty
array is modelled as `RoleRouters.keys []`), and `router.replace('/login')`. -/
def reset (s : SessionState) : SessionState :=
  let tags := delAllViews s.user.userInfo s.tagsView
  let u := setRoleRouters (RoleRouters.keys [])
    (setUserInfo none (setToken (jstr "") s.user))
  { user := u, tagsView := tags, currentRoute := jstr "/login" }

/-- `logout` (lines 142-144). -/
def logout (s : SessionState) : SessionState := reset s

/-! ## The default response interceptor (`src/axios/config.ts` lines 92-109) -/

/-- The `{code, message, data}` envelope carried in `response.data`; the
inner payload is opaque to the interceptor and modelled as an optional
string. -/
structure ResponseEnvelope where
  code : Int
  message : JStr := jstr ""
  payload : Option JStr := none
  deriving Repr, DecidableEq

/-- The slice of an Axios response the interceptor reads:
`response.config.responseType` and `response.data`. -/
structure AxiosResponse where
  responseType : Option JStr := none
  data : ResponseEnvelope
  deriving Repr, DecidableEq

/-- What the interceptor returns: the whole response (blob), the envelope
`response.data` (success), or `undefined` (every other code). -/
inductive InterceptorReturn where
  | whole (resp : AxiosResponse)
  | payload (d : ResponseEnvelope)
  | undef
  deriving Repr, DecidableEq

/-- The observable outcome of one interceptor run: its return value, the
`ElMessage.error` toasts it fired, and the session state it leaves. -/
structure InterceptorOutcome where
  result : InterceptorReturn
  toasts : List JStr
  session : SessionState

/-- `defaultResponseInterceptors` (lines 92-109).  `SUCCESS_CODE` comes
from `@/constants`, a module not present in the sources, so it is a
parameter here. -/
def defaultResponseInterceptors (successCode : Int) (response : AxiosResponse)
    (s : SessionState) : InterceptorOutcome :=
  if response.responseType == some (jstr "blob") then
    ⟨.whole response, [], s⟩
  else if response.data.code == successCode then
    ⟨.payload response.data, [], s⟩
  else if response.data.code == 401 then
    ⟨.undef, [response.data.message], logout s⟩
  else
    ⟨.undef, [response.data.message], s⟩

/-! ## The in-flight request map (`src/axios/service.ts`) -/

/-- JS `Map.set` (also backs the storage model): overwrite in place, else
append. -/
def mapSet {α : Type} (k : JStr) (v : α) : List (JStr × α) → List (JStr × α)
  | [] => [(k, v)]
  | (k2, v2) :: rest => if k2 == k then (k, v) :: rest else (k2, v2) :: mapSet k v rest

/-- JS `Map.delete` / `Storage.removeItem`: remove the (first) entry with
the given key. -/
def mapDelete {α : Type} (k : JStr) : List (JStr × α) → List (JStr × α)
  | [] => []
  | (k2, v2) :: rest => if k2 == k then rest else (k2, v2) :: mapDelete k rest

/-- JS `Map.get` / `Storage.getItem`. -/
def mapGet {α : Type} (k : JStr) : List (JStr × α) → Option α
  | [] => none
  | (k2, v) :: rest => if k2 == k then some v else mapGet k rest

/-- `abortControllerMap` and its surroundings: the URL-keyed entries
(each `AbortController` identified by a serial number), the log of
controllers that received `abort()`, and the next serial number. -/
structure AbortState where
  entries : List (JStr × Nat) := []
  aborted : List Nat := []
  nextId : Nat := 0
  deriving Repr, DecidableEq

/-- The request interceptor (lines 56-66): create a controller and store
it under the request URL — with the first `/mock` removed when the
`VITE_USE_MOCK` env flag is `'true'`. -/
def requestStoreController (useMock : Bool) (url : JStr) (st : AbortState) :
    AbortState :=
  let key := if useMock then stripFirstMock url else url
  { entries := mapSet key st.nextId st.entries,
    aborted := st.aborted,
    nextId := st.nextId + 1 }

/-- The success branch of the response interceptor (lines 69-75): delete
the entry under `res.config.url` (not stripped of `/mock`). -/
def responseDeleteController (url : JStr) (st : AbortState) : AbortState :=
  { st with entries := mapDelete url st.entries }

/-- One iteration of the `cancelRequest` loop (lines 119-122): abort the
controller stored under the URL if any, then delete the entry. -/
def cancelStep (st : AbortState) (url : JStr) : AbortState :=
  let st2 := match mapGet url st.entries with
             | some id => { st with aborted := st.aborted ++ [id] }
             | none => st
  { st2 with entries := mapDelete url st2.entries }

/-- `service.cancelRequest(url)` (lines 117-123): the loop over the URL
list (a single URL arrives as a one-element list). -/
def cancelRequest (urls : List JStr) (st : AbortState) : AbortState :=
  urls.foldl cancelStep st

/-- `service.cancelAllRequest` (lines 127-132): abort every stored
controller in map order, then clear the map. -/
def cancelAllRequest (st : AbortState) : AbortState :=
  { entries := [],
    aborted := st.aborted ++ st.entries.map Prod.snd,
    nextId := st.nextId }

/-! ## Browser storage (`src/hooks/web/useStorage.ts`)

`JSON.stringify` / `JSON.parse` are platform functions; they are modelled
concretely over a JSON value type whose numbers are integers (IEEE
doubles are outside the embedding) and whose string escaping covers the
quote and the backslash. -/

/-- A JSON value. -/
inductive JValue where
  | null
  | boolean (b : Bool)
  | num (n : Int)
  | str (s : JStr)
  | arr (elems : List JValue)
  | obj (members : List (JStr × JValue))
  deriving Repr

/-- `Object.prototype.toString.call(value).slice(8, -1)`
(`getValueType`, lines 31-34). -/
def getValueType : JValue → JStr
  | .null => jstr "Null"
  | .boolean _ => jstr "Boolean"
  | .num _ => jstr "Number"
  | .str _ => jstr "String"
  | .arr _ => jstr "Array"
  | .obj _ => jstr "Object"

/-- JSON string escaping: quote and backslash get a backslash prefix. -/
def escapeChars : JStr → JStr
  | [] => []
  | c :: rest =>
    if c = '"' || c = '\\' then '\\' :: c :: escapeChars rest
    else c :: escapeChars rest

/-- Decimal digit to character. -/
def digitToChar : Nat → Char
  | 0 => '0' | 1 => '1' | 2 => '2' | 3 => '3' | 4 => '4'
  | 5 => '5' | 6 => '6' | 7 => '7' | 8 => '8' | _ => '9'

/-- A natural number in decimal, most significant digit first. -/
def natToChars (n : Nat) : JStr :=
  if n = 0 then ['0'] else (Nat.digits 10 n).reverse.map digitToChar

/-- An integer in decimal. -/
def intToChars : Int → JStr
  | .ofNat n => natToChars n
  | .negSucc m => '-' :: natToChars (m + 1)

mutual

/-- Model of `JSON.stringify`. -/
def jsonStringify : JValue → JStr
  | .null => jstr "null"
  | .boolean true => jstr "true"
  | .boolean false => jstr "false"
  | .num n => intToChars n
  | .str s => '"' :: (escapeChars s ++ ['"'])
  | .arr elems => '[' :: (stringifyElems elems ++ [']'])
  | .obj members => '\x7b' :: (stringifyMembers members ++ ['\x7d'])

/-- Comma-joined serialization of array elements. -/
def stringifyElems : List JValue → JStr
  | [] => []
  | [e] => jsonStringify e
  | e :: rest => jsonStringify e ++ ',' :: stringifyElems rest

/-- Comma-joined serialization of object members. -/
def stringifyMembers : List (JStr × JValue) → JStr
  | [] => []
  | [(k, v)] => '"' :: (escapeChars k ++ ['"', ':'] ++ jsonStringify v)
  | (k, v) :: rest =>
    ('"' :: (escapeChars k ++ ['"', ':'] ++ jsonStringify v)) ++
      ',' :: stringifyMembers rest

end

/-- Skip JSON whitespace. -/
def skipWs (s : JStr) : JStr := s.dropWhile isJsWhitespace

/-- Parse the rest of a JSON string after its opening quote; a
backslash-escaped character stands for itself. -/
def parseStringBody : JStr → Option (JStr × JStr)
  | [] => none
  | c :: rest =>
    if c = '"' then some ([], rest)
    else if c = '\\' then
      match rest with
      | [] => none
      | c2 :: rest2 => (parseStringBody rest2).map (fun q => (c2 :: q.1, q.2))
    else (parseStringBody rest).map (fun q => (c :: q.1, q.2))

/-- Numeric value of a digit character. -/
def digitVal (c : Char) : Nat := c.toNat - 48

/-- Parse a non-empty run of decimal digits. -/
def parseDigits (s : JStr) : Option (Nat × JStr) :=
  let ds := s.takeWhile Char.isDigit
  if ds.isEmpty then none
  else some (ds.foldl (fun acc c => acc * 10 + digitVal c) 0,
             s.dropWhile Char.isDigit)

/-- Parse an optionally negated decimal integer. -/
def parseNumber (s : JStr) : Option (Int × JStr) :=
  if s.head? == some '-' then
    (parseDigits (s.drop 1)).map (fun q => (-(q.1 : Int), q.2))
  else (parseDigits s).map (fun q => ((q.1 : Int), q.2))

mutual

/-- Fuelled JSON value parser (whitespace inside a document is not
modelled — the repository only parses compact `JSON.stringify` output). -/
def parseValue : Nat → JStr → Option (JValue × JStr)
  | 0, _ => none
  | fuel + 1, s =>
    match s with
    | [] => none
    | c :: rest =>
      if c = 'n' && jsStartsWith rest (jstr "ull") then some (.null, rest.drop 3)
      else if c = 't' && jsStartsWith rest (jstr "rue") then
        some (.boolean true, rest.drop 3)
      else if c = 'f' && jsStartsWith rest (jstr "alse") then
        some (.boolean false, rest.drop 4)
      else if c = '"' then (parseStringBody rest).map (fun q => (.str q.1, q.2))
      else if c = '[' then
        if rest.head? == some ']' then some (.arr [], rest.drop 1)
        else (parseElems fuel rest).map (fun q => (.arr q.1, q.2))
      else if c = '\x7b' then
        if rest.head? == some '\x7d' then some (.obj [], rest.drop 1)
        else (parseMembers fuel rest).map (fun q => (.obj q.1, q.2))
      else (parseNumber (c :: rest)).map (fun q => (.num q.1, q.2))

/-- Fuelled parser for the elements of a non-empty JSON array, up to and
including the closing bracket. -/
def parseElems : Nat → JStr → Option (List JValue × JStr)
  | 0, _ => none
  | fuel + 1, s =>
    match parseValue fuel s with
    | none => none
    | some (v, rest) =>
      if rest.head? == some ',' then
        (parseElems fuel (rest.drop 1)).map (fun q => (v :: q.1, q.2))
      else if rest.head? == some ']' then some ([v], rest.drop 1)
      else none

/-- Fuelled parser for the members of a non-empty JSON object, up to and
including the closing brace. -/
def parseMembers : Nat → JStr → Option (List (JStr × JValue) × JStr)
  | 0, _ => none
  | fuel + 1, s =>
    match s with
    | [] => none
    | c :: rest =>
      if c = '"' then
        match parseStringBody rest with
        | none => none
        | some (key, rest2) =>
          if rest2.head? == some ':' then
            match parseValue fuel (rest2.drop 1) with
            | none => none
            | some (v, rest4) =>
              if rest4.head? == some ',' then
                (parseMembers fuel (rest4.drop 1)).map
                  (fun q => ((key, v) :: q.1, q.2))
              else if rest4.head? == some '\x7d' then
                some ([(key, v)], rest4.drop 1)
              else none
          else none
      else none

end

/-- Model of `JSON.parse`: parse one value (whitespace tolerated around
it) and require nothing after it.  The fuel is generous for any input
the repository produces; on garbage input an out-of-fuel run is a parse
failure. -/
def jsonParse (s : JStr) : Option JValue :=
  match parseValue (2 * s.length + 2) (skipWs s) with
  | some (v, rest) => if (skipWs rest).isEmpty then some v else none
  | none => none

/-- JS object property read on a parsed JSON object: with duplicate keys
the later member wins. -/
def lookupMember (key : JStr) (members : List (JStr × JValue)) : Option JValue :=
  (members.reverse.find? (fun m => m.1 == key)).map Prod.snd

/-- The `window[type]` storage: insertion-ordered key/value strings. -/
abbrev Storage := List (JStr × JStr)

/-- The `{type, value}` wrapper `setStorage` builds (line 50). -/
def wrapperObj (value : JValue) : JValue :=
  .obj [(jstr "type", .str (getValueType value)), (jstr "value", value)]

/-- `setStorage` (lines 47-51). -/
def setStorage (key : JStr) (value : JValue) (st : Storage) : Storage :=
  mapSet key (jsonStringify (wrapperObj value)) st

/-- `getStorage` (lines 58-66): read the raw string; JS falsiness makes
an absent (and the never-occurring empty) string return null-ish;
otherwise destructure `JSON.parse(raw).value` (a parse result without
that property, or a thrown TypeError, yields no value). -/
def getStorage (key : JStr) (st : Storage) : Option JValue :=
  match mapGet key st with
  | some raw =>
    if raw.isEmpty then none
    else
      match jsonParse raw with
      | some (.obj members) => lookupMember (jstr "value") members
      | _ => none
  | none => none

/-- `removeStorage` (lines 72-74). -/
def removeStorage (key : JStr) (st : Storage) : Storage := mapDelete key st

/-- The keys currently stored (`Object.keys(window[type])`, insertion
order). -/
def storageKeys (st : Storage) : List JStr := st.map Prod.fst

/-- The exclusion list `clear` works with (lines 83-85): the caller's
excludes (if any) followed by the two defaults. -/
def clearExcludesArr (excludes : Option (List JStr)) : List JStr :=
  let defaultExcludes := [jstr "dynamicRouter", jstr "serverDynamicRouter"]
  match excludes with
  | some ex => ex ++ defaultExcludes
  | none => defaultExcludes

/-- `clear` (lines 80-93): remove every stored key that is not in the
exclusion list (the `excludesArr ? ... : keys` guard always takes the
filter branch — an array is truthy). -/
def clear (excludes : Option (List JStr)) (st : Storage) : Storage :=
  let keys := storageKeys st
  let excludesArr := clearExcludesArr excludes
  let excludesKeys := keys.filter (fun key => !excludesArr.contains key)
  excludesKeys.foldl (fun st key => removeStorage key st) st

/-! ## Claim C6: the default response interceptor unwraps the envelope -/

/-- **C6.** For every response whose `responseType` is not `'blob'`, the
default response interceptor unwraps the `{code, data}` envelope: on
`data.code = SUCCESS_CODE` it returns `response.data` (no toast), on any
other code it fires an error toast and returns no payload (`undefined`);
a `'blob'` response is returned whole, with no toast and no state
change. -/
theorem interceptor_unwraps_envelope
    (successCode : Int) (response : AxiosResponse) (s : SessionState) :
    (response.responseType = some (jstr "blob") →
      defaultResponseInterceptors successCode response s =
        ⟨InterceptorReturn.whole response, [], s⟩) ∧
    (response.responseType ≠ some (jstr "blob") →
      response.data.code = successCode →
      (defaultResponseInterceptors successCode response s).result =
          InterceptorReturn.payload response.data ∧
      (defaultResponseInterceptors successCode response s).toasts = []) ∧
    (response.responseType ≠ some (jstr "blob") →
      response.data.code ≠ successCode →
      (defaultResponseInterceptors successCode response s).result =
          InterceptorReturn.undef ∧
      (defaultResponseInterceptors successCode response s).toasts =
        [response.data.message]) := by
  refine ⟨fun hb => ?_, fun hb hc => ?_, fun hb hc => ?_⟩
  · simp [defaultResponseInterceptors, hb]
  · simp [defaultResponseInterceptors, hb, hc]
  · by_cases h401 : response.data.code = 401
    · rw [h401] at hc
      simp [defaultResponseInterceptors, hb, hc, h401]
    · simp [defaultResponseInterceptors, hb, hc, h401]

/-- Witness for C6 at a concrete non-blob success response. -/
theorem interceptor_unwraps_envelope_witness :
    (defaultResponseInterceptors 0
        { responseType := none, data := { code := 0 } } {}).result =
      InterceptorReturn.payload { code := 0 } :=
  ((interceptor_unwraps_envelope 0
      { responseType := none, data := { code := 0 } } {}).2.1
    (by decide) rfl).1

/-! ## Claim C3: a 401 code triggers client-side logout -/

/-- **C3.** Whenever a non-blob response carries `data.code = 401` (and
401 is not the success code — `SUCCESS_CODE` is 0 in the repository),
the interceptor invokes the user store's `logout()`, whose `reset`
clears the session (token emptied, user info dropped) and replaces the
current route with `/login`. -/
theorem interceptor_401_logs_out (successCode : Int) (response : AxiosResponse)
    (s : SessionState) (hblob : response.responseType ≠ some (jstr "blob"))
    (h401 : response.data.code = 401) (hsc : successCode ≠ 401) :
    (defaultResponseInterceptors successCode response s).session = logout s ∧
    (logout s).currentRoute = jstr "/login" ∧
    (logout s).user.token = jstr "" ∧
    (logout s).user.userInfo = none := by
  have hcode : response.data.code ≠ successCode := by
    rw [h401]; exact fun h => hsc h.symm
  have hcode2 : ¬((401 : Int) = successCode) := fun h => hsc h.symm
  refine ⟨?_, ?_, ?_, ?_⟩
  · simp [defaultResponseInterceptors, hblob, hcode, h401, hcode2]
  · simp [logout, reset]
  · simp [logout, reset, setRoleRouters, setUserInfo, setToken]
  · simp [logout, reset, setRoleRouters, setUserInfo, setToken]

/-- Witness for C3 at a concrete 401 response. -/
theorem interceptor_401_logs_out_witness :
    (defaultResponseInterceptors 0
        { responseType := none, data := { code := 401 } } {}).session =
      logout {} :=
  (interceptor_401_logs_out 0
      { responseType := none, data := { code := 401 } } {}
      (by decide) rfl (by decide)).1

/-! ## Claim C4: what `logout()` actually clears -/

/-- `addCachedView` rebuilds the cache set only; the visited views are
untouched. -/
theorem addCachedView_visitedViews (t : TagsViewState) :
    (addCachedView t).visitedViews = t.visitedViews := by
  simp only [addCachedView]
  split
  · rfl
  · rfl

/-- A logged-in session whose remember-me flag is off and whose token
header key was customised. -/
def loggedInSession : SessionState :=
  { user := { userInfo := some { username := jstr "u", password := jstr "p",
                                 role := jstr "admin", roleId := jstr "1" },
              tokenKey := jstr "X-Token", token := jstr "tok",
              rememberMe := false },
    tagsView := {}, currentRoute := jstr "/dashboard" }

/-- **C4, counterexample.** `reset` does not return the token header key
or the remember-me flag to their logged-out (initial) values: after
`logout()` on `loggedInSession` they still hold `"X-Token"` and `false`,
while a fresh `state()` holds `"Authorization"` and `true`. -/
theorem logout_counterexample :
    (logout loggedInSession).user.rememberMe = false ∧
    initialUserState.rememberMe = true ∧
    (logout loggedInSession).user.tokenKey = jstr "X-Token" ∧
    initialUserState.tokenKey = jstr "Authorization" ∧
    jstr "X-Token" ≠ jstr "Authorization" :=
  ⟨rfl, rfl, rfl, rfl, by decide⟩

/-- **C4, amended.** After `logout()` the token, the user info and the
role routers are cleared, all non-affix tag views are dropped (all of
them when no user info was present), and the router is sent to
`/login`; the token header key, the remember-me flag and the login info
are left unchanged. -/
theorem logout_clears_session (s : SessionState) :
    (logout s).user.token = jstr "" ∧
    (logout s).user.userInfo = none ∧
    (logout s).user.roleRouters = some (RoleRouters.keys []) ∧
    (logout s).currentRoute = jstr "/login" ∧
    (logout s).user.tokenKey = s.user.tokenKey ∧
    (logout s).user.rememberMe = s.user.rememberMe ∧
    (logout s).user.loginInfo = s.user.loginInfo ∧
    (logout s).tagsView.visitedViews =
      (if s.user.userInfo.isSome
       then s.tagsView.visitedViews.filter (fun tag => tag.meta.affix)
       else []) := by
  refine ⟨rfl, rfl, rfl, rfl, rfl, rfl, rfl, ?_⟩
  simp [logout, reset, delAllViews, addCachedView_visitedViews,
    delAllVisitedViews]

/-! ## Claim C7: `generateRoutesByServer` preserves node identity and meta -/

/-- **C7.** For every module map and server route list, the output list
corresponds one-to-one (in order, hence with the same length) with the
input list: the i-th output record carries the i-th input record's path,
name, redirect and meta unchanged, and its children (when present) are
the recursive transform of the input's children. -/
theorem generateRoutesByServer_preserves_identity
    (modules : List JStr) (routes : List AppCustomRouteRecordRaw) :
    List.Forall₂
      (fun (out : AppRouteRecordRaw) (inp : AppCustomRouteRecordRaw) =>
        out.path = inp.path ∧ out.name = inp.name ∧
        out.redirect = inp.redirect ∧ out.meta = some inp.meta ∧
        out.children = inp.children.map (generateRoutesByServer modules))
      (generateRoutesByServer modules routes) routes := by
  induction routes with
  | nil =>
    simp only [generateRoutesByServer]
    exact List.Forall₂.nil
  | cons r rest ih =>
    cases r with
    | mk p n rd m comp cs =>
      rw [generateRoutesByServer.eq_def]
      refine List.Forall₂.cons ⟨rfl, rfl, rfl, rfl, ?_⟩ ih
      cases cs
      · rfl
      · rfl

/-! ## Claim C1: `flatMultiLevelRoutes` collapses to at most two levels -/

/-- **C1.** `flatMultiLevelRoutes` keeps the list length; in its output
no retained route's child has children of its own (a child's children
are absent or empty); and a route that was not multi-level is returned
unchanged at its position. -/
theorem flatMultiLevelRoutes_two_levels (routes : List AppRouteRecordRaw) :
    (flatMultiLevelRoutes routes).length = routes.length ∧
    (∀ r ∈ flatMultiLevelRoutes routes, ∀ cs, r.children = some cs →
      ∀ c ∈ cs, c.children.getD [] = []) ∧
    (∀ (i : Nat) (h : i < routes.length)
        (h2 : i < (flatMultiLevelRoutes routes).length),
      isMultipleRoute routes[i] = false →
        (flatMultiLevelRoutes routes)[i] = routes[i]) := by
  refine ⟨List.length_map _ _, ?_, ?_⟩
  · intro r hr cs hcs c hc
    obtain ⟨orig, -, rfl⟩ := List.mem_map.1 hr
    by_cases hm : isMultipleRoute orig
    · rw [if_pos hm] at hcs
      cases horig : orig.children with
      | none =>
        have hpr : promoteRouteLevel orig = orig := by
          simp [promoteRouteLevel, horig]
        rw [hpr, horig] at hcs
        exact Option.noConfusion hcs
      | some l =>
        simp only [promoteRouteLevel, horig,
          AppRouteRecordRaw.children_withChildren, Option.some.injEq] at hcs
        subst hcs
        obtain ⟨x, -, rfl⟩ := List.mem_map.1 hc
        cases x
        rfl
    · rw [if_neg hm] at hcs
      unfold isMultipleRoute at hm
      rw [hcs] at hm
      simp only [Bool.not_eq_true, Bool.and_eq_false_iff] at hm
      have hcne : cs ≠ [] := by
        intro hnil
        subst hnil
        exact absurd hc (List.not_mem_nil c)
      have hany : cs.any hasChildren = false := by
        rcases hm with hm | hm
        · exact absurd (by simpa using hm) (by simpa [List.isEmpty_iff] using hcne)
        · exact hm
      have := List.any_eq_false.1 hany c hc
      unfold hasChildren at this
      simpa [List.isEmpty_iff] using this
  · intro i h h2 hm
    have h3 : (flatMultiLevelRoutes routes)[i] =
        if isMultipleRoute routes[i] = true
        then promoteRouteLevel routes[i] else routes[i] := by
      simp [flatMultiLevelRoutes, List.getElem_map]
    rw [h3, if_neg (by simp [hm])]

/-- A route list with a single-level (not multi-level) tree, used to
witness C1's hypotheses. -/
def demoFlatRoutes : List AppRouteRecordRaw :=
  [AppRouteRecordRaw.mk (jstr "/home") (jstr "Home") none none none
    (some [AppRouteRecordRaw.mk (jstr "index") (jstr "Index") none none none
      none])]

/-- Witness for C1: the single-level demo route is returned unchanged. -/
theorem flatMultiLevelRoutes_two_levels_witness :
    (flatMultiLevelRoutes demoFlatRoutes).get ⟨0, by decide⟩ =
      demoFlatRoutes.get ⟨0, by decide⟩ := by
  have h := (flatMultiLevelRoutes_two_levels demoFlatRoutes).2.2 0 (by decide)
    (by decide) (by decide)
  simpa [List.get_eq_getElem] using h

/-! ## Claim C9: tagsView actions keep visited paths unique and bounded -/

/-- No two visited views share a path. -/
def uniquePaths (l : List TagView) : Prop :=
  (l.map (fun v => v.path)).Nodup

instance (l : List TagView) : Decidable (uniquePaths l) := by
  unfold uniquePaths
  infer_instance

/-- A sublist of a path-unique view list is path-unique. -/
theorem uniquePaths_of_sublist {l1 l2 : List TagView}
    (hs : List.Sublist l1 l2) (h : uniquePaths l2) : uniquePaths l1 :=
  List.Nodup.sublist (hs.map (fun v => v.path)) h

/-- `addVisitedView` either leaves the visited list alone or appends the
single new view (with its title defaulted), the latter only when no
visited view shares the path and `noTagsView` is unset. -/
theorem addVisitedView_cases (s : TagsViewState) (view : TagView) :
    (addVisitedView s view).visitedViews = s.visitedViews ∨
    ((addVisitedView s view).visitedViews =
        s.visitedViews ++ [{ view with title := some (titleOrNoName view.meta.title) }] ∧
      s.visitedViews.any (fun v => v.path == view.path) = false ∧
      view.meta.noTagsView = false) := by
  unfold addVisitedView
  by_cases h1 : s.visitedViews.any (fun v => v.path == view.path)
  · left
    simp [h1]
  · by_cases h2 : view.meta.noTagsView
    · left
      simp [h1, h2]
    · right
      refine ⟨by simp [h1, h2], by simpa using h1, by simpa using h2⟩

/-- The filtered-enum deletions only keep elements of the original list,
in order. -/
theorem enum_filter_map_snd_sublist (l : List TagView) (p : Nat × TagView → Bool) :
    List.Sublist ((l.enum.filter p).map Prod.snd) l := by
  have h1 : List.Sublist (l.enum.filter p) l.enum := List.filter_sublist _
  have h2 := List.Sublist.map Prod.snd h1
  rwa [List.enum_map_snd] at h2

/-- **C9.** With path-unique visited views, `addVisitedView`/`addView`
keep the paths unique and grow the list by at most the one new view —
and only when no visited view already has its path and its meta does not
set `noTagsView`; every deletion action (`delView`, `delOthersViews`,
`delLeftViews`, `delRightViews`, `delAllViews`) only removes entries (its
result is a sublist of the input), hence also keeps the paths unique. -/
theorem tagsView_visited_invariants (s : TagsViewState) (view : TagView)
    (userInfo : Option UserType) (h : uniquePaths s.visitedViews) :
    uniquePaths (addVisitedView s view).visitedViews ∧
    uniquePaths (addView view s).visitedViews ∧
    ((addVisitedView s view).visitedViews = s.visitedViews ∨
      ((addVisitedView s view).visitedViews =
          s.visitedViews ++
            [{ view with title := some (titleOrNoName view.meta.title) }] ∧
        (∀ v ∈ s.visitedViews, v.path ≠ view.path) ∧
        view.meta.noTagsView = false)) ∧
    List.Sublist (delView view s).visitedViews s.visitedViews ∧
    List.Sublist (delOthersViews view s).visitedViews s.visitedViews ∧
    List.Sublist (delLeftViews view s).visitedViews s.visitedViews ∧
    List.Sublist (delRightViews view s).visitedViews s.visitedViews ∧
    List.Sublist (delAllViews userInfo s).visitedViews s.visitedViews ∧
    uniquePaths (delView view s).visitedViews ∧
    uniquePaths (delOthersViews view s).visitedViews ∧
    uniquePaths (delLeftViews view s).visitedViews ∧
    uniquePaths (delRightViews view s).visitedViews ∧
    uniquePaths (delAllViews userInfo s).visitedViews := by
  have hadd : uniquePaths (addVisitedView s view).visitedViews := by
    rcases addVisitedView_cases s view with hc | ⟨hc, hany, -⟩
    · rwa [hc]
    · rw [hc]
      unfold uniquePaths
      rw [List.map_append]
      simp only [List.map_cons, List.map_nil]
      rw [List.nodup_append]
      refine ⟨h, List.nodup_singleton _, ?_⟩
      intro a ha hb
      simp only [List.mem_singleton] at hb
      subst hb
      obtain ⟨v, hv, hvp⟩ := List.mem_map.1 ha
      exact List.any_eq_false.1 hany v hv (beq_iff_eq.2 hvp)
  have hdelV : List.Sublist (delView view s).visitedViews s.visitedViews := by
    rw [delView, addCachedView_visitedViews]
    exact List.eraseP_sublist _
  have hdelO : List.Sublist (delOthersViews view s).visitedViews s.visitedViews := by
    rw [delOthersViews, addCachedView_visitedViews]
    exact List.filter_sublist _
  have hdelL : List.Sublist (delLeftViews view s).visitedViews s.visitedViews := by
    unfold delLeftViews
    cases hidx : s.visitedViews.findIdx? (fun v => v.path == view.path) with
    | none => exact List.Sublist.refl _
    | some index =>
      rw [addCachedView_visitedViews]
      exact enum_filter_map_snd_sublist _ _
  have hdelR : List.Sublist (delRightViews view s).visitedViews s.visitedViews := by
    unfold delRightViews
    cases hidx : s.visitedViews.findIdx? (fun v => v.path == view.path) with
    | none => exact List.Sublist.refl _
    | some index =>
      rw [addCachedView_visitedViews]
      exact enum_filter_map_snd_sublist _ _
  have hdelA : List.Sublist (delAllViews userInfo s).visitedViews s.visitedViews := by
    rw [delAllViews, addCachedView_visitedViews]
    unfold delAllVisitedViews
    by_cases hu : userInfo.isSome
    · simp only [hu, if_true]
      exact List.filter_sublist _
    · simp only [hu, if_false]
      exact List.nil_sublist _
  refine ⟨hadd, ?_, ?_, hdelV, hdelO, hdelL, hdelR, hdelA,
    uniquePaths_of_sublist hdelV h, uniquePaths_of_sublist hdelO h,
    uniquePaths_of_sublist hdelL h, uniquePaths_of_sublist hdelR h,
    uniquePaths_of_sublist hdelA h⟩
  · rw [addView, addCachedView_visitedViews]
    exact hadd
  · rcases addVisitedView_cases s view with hc | ⟨hc, hany, hn⟩
    · exact Or.inl hc
    · refine Or.inr ⟨hc, ?_, hn⟩
      intro v hv
      have := List.any_eq_false.1 hany v hv
      simpa using this

/-- A one-view state used to witness C9's hypothesis. -/
def demoTagsState : TagsViewState :=
  { visitedViews := [{ path := jstr "/home", name := jstr "Home" }] }

/-- Witness for C9 at a concrete state and view. -/
theorem tagsView_visited_invariants_witness :
    uniquePaths (addVisitedView demoTagsState
      { path := jstr "/about", name := jstr "About" }).visitedViews :=
  (tagsView_visited_invariants demoTagsState
    { path := jstr "/about", name := jstr "About" } none (by decide)).1

/-! ## Claim C8: the in-flight request map -/

theorem jstr_beq_false {a b : JStr} (h : b ≠ a) : (a == b) = false := by
  simp only [beq_eq_false_iff_ne, ne_eq]
  exact fun hc => h hc.symm

theorem mapGet_mapSet_self {α : Type} (k : JStr) (v : α) (l : List (JStr × α)) :
    mapGet k (mapSet k v l) = some v := by
  induction l with
  | nil => simp [mapSet, mapGet]
  | cons e rest ih =>
    obtain ⟨k2, v2⟩ := e
    by_cases h : k2 == k
    · simp [mapSet, mapGet, h]
    · simp only [mapSet, h]
      simp only [Bool.false_eq_true, if_false, mapGet, h]
      exact ih

theorem mapGet_mapSet_ne {α : Type} {u k : JStr} (h : u ≠ k) (v : α)
    (l : List (JStr × α)) : mapGet u (mapSet k v l) = mapGet u l := by
  induction l with
  | nil =>
    simp only [mapSet, mapGet]
    rw [jstr_beq_false h]
    simp
  | cons e rest ih =>
    obtain ⟨k2, v2⟩ := e
    by_cases h2 : k2 == k
    · have hk2 : k2 = k := by simpa using h2
      subst hk2
      simp only [mapSet, h2, if_true, mapGet]
      rw [jstr_beq_false h]
      simp
    · simp only [mapSet, h2, Bool.false_eq_true, if_false, mapGet]
      by_cases h3 : k2 == u
      · simp [h3]
      · simp only [h3, Bool.false_eq_true, if_false]
        exact ih

theorem mapGet_eq_none_of_not_mem {α : Type} {k : JStr} {l : List (JStr × α)}
    (h : k ∉ l.map Prod.fst) : mapGet k l = none := by
  induction l with
  | nil => rfl
  | cons e rest ih =>
    obtain ⟨k2, v2⟩ := e
    simp only [List.map_cons, List.mem_cons] at h
    push_neg at h
    simp only [mapGet]
    rw [jstr_beq_false h.1]
    simp only [Bool.false_eq_true, if_false]
    exact ih h.2

theorem mapDelete_sublist {α : Type} (k : JStr) (l : List (JStr × α)) :
    List.Sublist (mapDelete k l) l := by
  induction l with
  | nil => exact List.Sublist.refl _
  | cons e rest ih =>
    obtain ⟨k2, v2⟩ := e
    simp only [mapDelete]
    by_cases h : k2 == k
    · simp only [h, if_true]
      exact List.sublist_cons_of_sublist _ (List.Sublist.refl _)
    · simp only [h, Bool.false_eq_true, if_false]
      exact List.Sublist.cons₂ _ ih

theorem mapGet_mapDelete_self {α : Type} {k : JStr} {l : List (JStr × α)}
    (h : (l.map Prod.fst).Nodup) : mapGet k (mapDelete k l) = none := by
  induction l with
  | nil => rfl
  | cons e rest ih =>
    obtain ⟨k2, v2⟩ := e
    simp only [List.map_cons, List.nodup_cons] at h
    simp only [mapDelete]
    by_cases h2 : k2 == k
    · have hk2 : k2 = k := by simpa using h2
      subst hk2
      simp only [h2, if_true]
      exact mapGet_eq_none_of_not_mem h.1
    · simp only [h2, Bool.false_eq_true, if_false, mapGet, h2]
      exact ih h.2

theorem mapGet_mapDelete_ne {α : Type} {u k : JStr} (h : u ≠ k)
    (l : List (JStr × α)) : mapGet u (mapDelete k l) = mapGet u l := by
  induction l with
  | nil => rfl
  | cons e rest ih =>
    obtain ⟨k2, v2⟩ := e
    simp only [mapDelete, mapGet]
    by_cases h2 : k2 == k
    · have hk2 : k2 = k := by simpa using h2
      subst hk2
      simp only [h2, if_true]
      rw [jstr_beq_false h]
      simp
    · simp only [h2, Bool.false_eq_true, if_false, mapGet]
      by_cases h3 : k2 == u
      · simp [h3]
      · simp only [h3, Bool.false_eq_true, if_false]
        exact ih

theorem mapSet_keys_nodup {α : Type} {k : JStr} (v : α) {l : List (JStr × α)}
    (h : (l.map Prod.fst).Nodup) : ((mapSet k v l).map Prod.fst).Nodup := by
  induction l with
  | nil => simp [mapSet]
  | cons e rest ih =>
    obtain ⟨k2, v2⟩ := e
    simp only [List.map_cons, List.nodup_cons] at h
    simp only [mapSet]
    by_cases h2 : k2 == k
    · have hk2 : k2 = k := by simpa using h2
      subst hk2
      simp only [h2, if_true, List.map_cons, List.nodup_cons]
      exact h
    · simp only [h2, Bool.false_eq_true, if_false, List.map_cons, List.nodup_cons]
      refine ⟨?_, ih h.2⟩
      intro hmem
      have : k2 ∈ rest.map Prod.fst ∨ k2 = k := by
        clear ih h
        induction rest with
        | nil =>
          simp only [mapSet, List.map_cons, List.map_nil] at hmem
          simp only [List.mem_singleton] at hmem
          exact Or.inr hmem
        | cons e2 rest2 ih2 =>
          obtain ⟨k3, v3⟩ := e2
          simp only [mapSet] at hmem
          by_cases h3 : k3 == k
          · simp only [h3, if_true, List.map_cons, List.mem_cons] at hmem
            rcases hmem with hmem | hmem
            · exact Or.inr hmem
            · exact Or.inl (List.mem_cons_of_mem _ hmem)
          · simp only [h3, Bool.false_eq_true, if_false, List.map_cons,
              List.mem_cons] at hmem
            rcases hmem with hmem | hmem
            · exact Or.inl (List.mem_cons.2 (Or.inl hmem))
            · rcases ih2 hmem with h4 | h4
              · exact Or.inl (List.mem_cons_of_mem _ h4)
              · exact Or.inr h4
      rcases this with h4 | h4
      · exact h.1 h4
      · exact absurd (by simp [h4] : (k2 == k) = true) (by simpa using h2)

theorem mapGet_eq_none_iff {α : Type} {k : JStr} {l : List (JStr × α)} :
    mapGet k l = none ↔ k ∉ l.map Prod.fst := by
  constructor
  · intro h hmem
    induction l with
    | nil => exact absurd hmem (List.not_mem_nil _)
    | cons e rest ih =>
      obtain ⟨k2, v2⟩ := e
      simp only [mapGet] at h
      simp only [List.map_cons, List.mem_cons] at hmem
      by_cases h2 : k2 == k
      · simp [h2] at h
      · rcases hmem with hmem | hmem
        · exact absurd (by simp [hmem] : (k2 == k) = true) (by simpa using h2)
        · exact ih (by simpa [h2] using h) hmem
  · exact mapGet_eq_none_of_not_mem

theorem cancelStep_entries (st : AbortState) (u : JStr) :
    (cancelStep st u).entries = mapDelete u st.entries := by
  cases hget : mapGet u st.entries <;> simp [cancelStep, hget]

theorem cancelStep_aborted_of_some (st : AbortState) (u : JStr) (id : Nat)
    (hget : mapGet u st.entries = some id) :
    (cancelStep st u).aborted = st.aborted ++ [id] := by
  simp [cancelStep, hget]

theorem cancelStep_aborted_of_none (st : AbortState) (u : JStr)
    (hget : mapGet u st.entries = none) :
    (cancelStep st u).aborted = st.aborted := by
  simp [cancelStep, hget]

/-- The entries of `cancelRequest` are a sublist of the input entries. -/
theorem cancelRequest_entries_sublist (urls : List JStr) (st : AbortState) :
    List.Sublist (cancelRequest urls st).entries st.entries := by
  induction urls generalizing st with
  | nil => exact List.Sublist.refl _
  | cons u rest ih =>
    simp only [cancelRequest, List.foldl_cons] at ih ⊢
    refine List.Sublist.trans (ih _) ?_
    rw [cancelStep_entries]
    exact mapDelete_sublist _ _

/-- The abort log of `cancelRequest` only grows. -/
theorem cancelRequest_aborted_mono (urls : List JStr) (st : AbortState)
    {x : Nat} (hx : x ∈ st.aborted) : x ∈ (cancelRequest urls st).aborted := by
  induction urls generalizing st with
  | nil => exact hx
  | cons u rest ih =>
    simp only [cancelRequest, List.foldl_cons] at ih ⊢
    refine ih _ ?_
    cases hget : mapGet u st.entries
    · rw [cancelStep_aborted_of_none _ _ hget]
      exact hx
    · rw [cancelStep_aborted_of_some _ _ _ hget]
      exact List.mem_append_left _ hx

/-- An absent key stays absent through `cancelRequest`. -/
theorem cancelRequest_none_persists (urls : List JStr) (st : AbortState)
    {u : JStr} (h : mapGet u st.entries = none) :
    mapGet u (cancelRequest urls st).entries = none := by
  refine mapGet_eq_none_iff.2 (fun hmem => ?_)
  exact mapGet_eq_none_iff.1 h
    (((cancelRequest_entries_sublist urls st).map Prod.fst).mem hmem)

/-- `cancelRequest` deletes the entry of every given URL. -/
theorem cancelRequest_deletes (urls : List JStr) (st : AbortState)
    (h : (st.entries.map Prod.fst).Nodup) {u : JStr} (hu : u ∈ urls) :
    mapGet u (cancelRequest urls st).entries = none := by
  induction urls generalizing st with
  | nil => exact absurd hu (List.not_mem_nil u)
  | cons u0 rest ih =>
    simp only [cancelRequest, List.foldl_cons] at ih ⊢
    have hnodup2 : (((cancelStep st u0).entries).map Prod.fst).Nodup := by
      rw [cancelStep_entries]
      exact List.Nodup.sublist ((mapDelete_sublist _ _).map Prod.fst) h
    rcases List.mem_cons.1 hu with rfl | hu2
    · refine cancelRequest_none_persists rest _ ?_
      rw [cancelStep_entries]
      exact mapGet_mapDelete_self h
    · exact ih _ hnodup2 hu2

/-- `cancelRequest` leaves entries of other URLs unchanged. -/
theorem cancelRequest_preserves (urls : List JStr) (st : AbortState)
    {u : JStr} (hu : u ∉ urls) :
    mapGet u (cancelRequest urls st).entries = mapGet u st.entries := by
  induction urls generalizing st with
  | nil => rfl
  | cons u0 rest ih =>
    simp only [cancelRequest, List.foldl_cons] at ih ⊢
    have hne : u ≠ u0 := fun hc => hu (hc ▸ List.mem_cons_self u0 rest)
    have h2 : u ∉ rest := fun hc => hu (List.mem_cons_of_mem u0 hc)
    rw [ih _ h2, cancelStep_entries, mapGet_mapDelete_ne hne]

/-- `cancelRequest` aborts the controller stored under every given URL. -/
theorem cancelRequest_aborts (urls : List JStr) (st : AbortState)
    (h : (st.entries.map Prod.fst).Nodup) {u : JStr} (hu : u ∈ urls)
    {id : Nat} (hid : mapGet u st.entries = some id) :
    id ∈ (cancelRequest urls st).aborted := by
  induction urls generalizing st with
  | nil => exact absurd hu (List.not_mem_nil u)
  | cons u0 rest ih =>
    simp only [cancelRequest, List.foldl_cons] at ih ⊢
    have hnodup2 : (((cancelStep st u0).entries).map Prod.fst).Nodup := by
      rw [cancelStep_entries]
      exact List.Nodup.sublist ((mapDelete_sublist _ _).map Prod.fst) h
    rcases List.mem_cons.1 hu with rfl | hu2
    · have := cancelStep_aborted_of_some st u id hid
      refine cancelRequest_aborted_mono rest _ ?_
      rw [this]
      exact List.mem_append_right _ (List.mem_singleton.2 rfl)
    · by_cases heq : u = u0
      · subst heq
        have := cancelStep_aborted_of_some st u id hid
        refine cancelRequest_aborted_mono rest _ ?_
        rw [this]
        exact List.mem_append_right _ (List.mem_singleton.2 rfl)
      · refine ih _ hnodup2 hu2 ?_
        rw [cancelStep_entries, mapGet_mapDelete_ne heq]
        exact hid

/-- **C8, counterexample.** In mock mode a request for `/mock/user` is
not stored under the request's URL: the entry lives under `/user`. -/
theorem abortMap_counterexample :
    mapGet (jstr "/mock/user")
      (requestStoreController true (jstr "/mock/user") {}).entries = none ∧
    mapGet (jstr "/user")
      (requestStoreController true (jstr "/mock/user") {}).entries =
        some 0 := by
  decide

/-- **C8, amended.** With unique keys (which all operations preserve):
a request stores its controller under the request URL — with the first
`/mock` removed in mock mode — leaving other entries unchanged; a
successful response deletes exactly the entry keyed by its (unstripped)
URL; `cancelRequest` aborts and deletes exactly the entries of the given
URLs, leaving every other entry unchanged; `cancelAllRequest` aborts
every stored controller and empties the map. -/
theorem abortMap_consistency (useMock : Bool) (url : JStr) (urls : List JStr)
    (st : AbortState) (h : (st.entries.map Prod.fst).Nodup) :
    mapGet (if useMock then stripFirstMock url else url)
        (requestStoreController useMock url st).entries = some st.nextId ∧
    (∀ u, u ≠ (if useMock then stripFirstMock url else url) →
      mapGet u (requestStoreController useMock url st).entries =
        mapGet u st.entries) ∧
    (((requestStoreController useMock url st).entries.map Prod.fst).Nodup) ∧
    mapGet url (responseDeleteController url st).entries = none ∧
    (∀ u, u ≠ url →
      mapGet u (responseDeleteController url st).entries = mapGet u st.entries) ∧
    (((responseDeleteController url st).entries.map Prod.fst).Nodup) ∧
    (∀ u ∈ urls, mapGet u (cancelRequest urls st).entries = none) ∧
    (∀ u, u ∉ urls →
      mapGet u (cancelRequest urls st).entries = mapGet u st.entries) ∧
    (∀ u ∈ urls, ∀ id, mapGet u st.entries = some id →
      id ∈ (cancelRequest urls st).aborted) ∧
    (((cancelRequest urls st).entries.map Prod.fst).Nodup) ∧
    (cancelAllRequest st).entries = [] ∧
    (cancelAllRequest st).aborted = st.aborted ++ st.entries.map Prod.snd := by
  refine ⟨?_, ?_, ?_, ?_, ?_, ?_, ?_, ?_, ?_, ?_, rfl, rfl⟩
  · exact mapGet_mapSet_self _ _ _
  · intro u hu
    exact mapGet_mapSet_ne hu _ _
  · exact mapSet_keys_nodup _ h
  · exact mapGet_mapDelete_self h
  · intro u hu
    exact mapGet_mapDelete_ne hu _
  · exact List.Nodup.sublist ((mapDelete_sublist _ _).map Prod.fst) h
  · intro u hu
    exact cancelRequest_deletes urls st h hu
  · intro u hu
    exact cancelRequest_preserves urls st hu
  · intro u hu id hid
    exact cancelRequest_aborts urls st h hu hid
  · exact List.Nodup.sublist
      ((cancelRequest_entries_sublist urls st).map Prod.fst) h

/-- A small in-flight map used to witness C8's hypothesis. -/
def demoAbortState : AbortState :=
  { entries := [(jstr "/a", 1)], aborted := [], nextId := 3 }

/-- Witness for C8 (amended) at a concrete state. -/
theorem abortMap_consistency_witness :
    mapGet (jstr "/user")
      (requestStoreController true (jstr "/mock/user") demoAbortState).entries =
      some 3 :=
  (abortMap_consistency true (jstr "/mock/user") [] demoAbortState
    (by decide)).1

/-! ## Claim C2: front-end route generation retains exactly the key matches -/

/-- The `data` loop is equivalent to an existence check over the keys. -/
theorem feData_eq_any (keys : List JStr) (basePath : JStr)
    (route : AppRouteRecordRaw) (meta : RouteMeta) :
    feData keys basePath route meta =
      if keys.any (feMatchKey basePath route meta) then some route else none := by
  unfold feData
  suffices h : ∀ (d : Option AppRouteRecordRaw),
      keys.foldl
          (fun d item =>
            if feMatchKey basePath route meta item then some route else d) d =
        if keys.any (feMatchKey basePath route meta) then some route else d from
    h none
  induction keys with
  | nil =>
    intro d
    simp
  | cons k ks ih =>
    intro d
    simp only [List.foldl_cons, List.any_cons]
    rw [ih]
    by_cases hk : feMatchKey basePath route meta k
    · by_cases ha : ks.any (feMatchKey basePath route meta) <;> simp [hk, ha]
    · simp [hk]

/-- The loop body's if-else equals the claim's disjunction. -/
theorem feMatchKey_eq_spec (basePath : JStr) (route : AppRouteRecordRaw)
    (meta : RouteMeta) (item : JStr) :
    feMatchKey basePath route meta item = feSpecMatchKey basePath route meta item := by
  unfold feMatchKey feSpecMatchKey
  by_cases h : (isUrl item &&
      (feOnlyOneChild basePath route meta == some item || route.path == item)) <;>
    simp [h, Bool.or_assoc]

theorem sizeOf_list_pos (l : List AppRouteRecordRaw) : 0 < sizeOf l := by
  cases l <;> simp_arith

/-- Auxiliary strong induction for C2's refinement theorem. -/
theorem generateRoutesByFrontEnd_eq_spec_aux (keys : List JStr) :
    ∀ (n : Nat) (routes : List AppRouteRecordRaw), sizeOf routes ≤ n →
      ∀ (basePath : JStr),
        generateRoutesByFrontEnd keys basePath routes =
          generateRoutesByFrontEndSpec keys basePath routes := by
  intro n
  induction n with
  | zero =>
    intro routes h
    have := sizeOf_list_pos routes
    omega
  | succ n ih =>
    intro routes h basePath
    cases routes with
    | nil => rw [generateRoutesByFrontEnd.eq_def, generateRoutesByFrontEndSpec.eq_def]
    | cons route rest =>
      cases route with
      | mk p nm r m c cs =>
        have hrest : sizeOf rest ≤ n := by
          simp_arith at h
          omega
        rw [generateRoutesByFrontEnd.eq_def, generateRoutesByFrontEndSpec.eq_def]
        simp only []
        by_cases hh : ((m.getD {}).hidden && !(m.getD {}).canTo) = true
        · simp only [hh, if_true]
          exact ih rest hrest basePath
        · simp only [hh, Bool.false_eq_true, if_false]
          rw [feData_eq_any]
          have hfun : feMatchKey basePath (AppRouteRecordRaw.mk p nm r m c cs)
              (m.getD {}) = feSpecMatchKey basePath
              (AppRouteRecordRaw.mk p nm r m c cs) (m.getD {}) :=
            funext (feMatchKey_eq_spec basePath _ _)
          rw [hfun]
          by_cases hany : keys.any (feSpecMatchKey basePath
              (AppRouteRecordRaw.mk p nm r m c cs) (m.getD {})) = true
          · simp only [hany, if_true]
            cases cs with
            | none => rw [ih rest hrest basePath]
            | some l =>
              have hl : sizeOf l ≤ n := by
                simp_arith at h
                omega
              simp only [ih rest hrest basePath, ih l hl]
          · simp only [hany, Bool.false_eq_true, if_false]
            exact ih rest hrest basePath

/-- **C2 (amended).** Front-end route generation has exactly the stated
shape: a route with `meta.hidden` set and `meta.canTo` unset is dropped;
otherwise the route is retained iff some key matches it per
`feSpecMatchKey` — the key equals the trimmed candidate resolved path
(the single child's resolved path when the route has exactly one child
and `alwaysShow` is unset, else the route's own path resolved against
the base), or equals `meta.followRoute`, or is a URL equal to the raw
route path or to the single-child path; a retained route keeps its
fields and gets its children filtered recursively under the resolved
base path; nothing else is changed and no error is possible. -/
theorem generateRoutesByFrontEnd_eq_spec (keys : List JStr) (basePath : JStr)
    (routes : List AppRouteRecordRaw) :
    generateRoutesByFrontEnd keys basePath routes =
      generateRoutesByFrontEndSpec keys basePath routes :=
  generateRoutesByFrontEnd_eq_spec_aux keys (sizeOf routes) routes
    (Nat.le_refl _) basePath

/-- A route whose own resolved path is a permitted key but which has a
single child (so the child's resolved path is compared instead). -/
def demoFrontEndRoute : AppRouteRecordRaw :=
  AppRouteRecordRaw.mk (jstr "/a") (jstr "A") none none none
    (some [AppRouteRecordRaw.mk (jstr "b") (jstr "B") none none none none])

/-- **C2, counterexample.** The claim says a route whose resolved path
equals some key is retained; here the route's own resolved path `/a` is
the only key, the route is not hidden, yet `generateRoutesByFrontEnd`
omits it (the single-child path `/a/b` is what gets compared). -/
theorem generateRoutesByFrontEnd_counterexample :
    pathResolve (jstr "/") demoFrontEndRoute.path ∈ [jstr "/a"] ∧
    (demoFrontEndRoute.meta.getD {}).hidden = false ∧
    generateRoutesByFrontEnd [jstr "/a"] (jstr "/") [demoFrontEndRoute] = [] := by
  refine ⟨by decide, rfl, ?_⟩
  simp [generateRoutesByFrontEnd, feData, feMatchKey, feOnlyOneChild, pathResolve,
    isUrl, jsTrim, jsStartsWith, collapseDoubleSlash, jstr, isJsWhitespace,
    demoFrontEndRoute]

/-! ## Claim C10: `clear` never removes the dynamic-router keys -/

/-- Iterated `removeItem` leaves a subset of the entries. -/
theorem foldl_mapDelete_sublist (ks : List JStr) (st : Storage) :
    List.Sublist (ks.foldl (fun st key => removeStorage key st) st) st := by
  induction ks generalizing st with
  | nil => exact List.Sublist.refl _
  | cons k0 ks ih =>
    simp only [List.foldl_cons]
    exact List.Sublist.trans (ih _) (mapDelete_sublist _ _)

/-- Iterated `removeItem` of other keys does not touch `k`. -/
theorem foldl_mapDelete_not_mem (ks : List JStr) (st : Storage) {k : JStr}
    (hk : k ∉ ks) :
    mapGet k (ks.foldl (fun st key => removeStorage key st) st) = mapGet k st := by
  induction ks generalizing st with
  | nil => rfl
  | cons k0 ks ih =>
    simp only [List.foldl_cons]
    have hne : k ≠ k0 := fun hc => hk (hc ▸ List.mem_cons_self k0 ks)
    rw [ih _ (fun hc => hk (List.mem_cons_of_mem k0 hc))]
    exact mapGet_mapDelete_ne hne _

/-- Iterated `removeItem` of a key list removes every listed key (under
the storage's unique-key invariant). -/
theorem foldl_mapDelete_mem (ks : List JStr) (st : Storage)
    (h : (st.map Prod.fst).Nodup) {k : JStr} (hk : k ∈ ks) :
    mapGet k (ks.foldl (fun st key => removeStorage key st) st) = none := by
  induction ks generalizing st with
  | nil => exact absurd hk (List.not_mem_nil k)
  | cons k0 ks ih =>
    simp only [List.foldl_cons]
    rcases List.mem_cons.1 hk with rfl | hk2
    · refine mapGet_eq_none_iff.2 (fun hmem => ?_)
      have hnone : mapGet k (removeStorage k st) = none := mapGet_mapDelete_self h
      exact mapGet_eq_none_iff.1 hnone
        (((foldl_mapDelete_sublist ks _).map Prod.fst).mem hmem)
    · refine ih _ ?_ hk2
      exact List.Nodup.sublist ((mapDelete_sublist _ _).map Prod.fst) h

/-- **C10.** For every excludes argument (including none) and every
storage with unique keys, `clear` acts as: a key in the exclusion list
(the caller's excludes plus the always-present `dynamicRouter` and
`serverDynamicRouter`) keeps its stored value, and every other key is
removed; in particular the two dynamic-router keys are never removed. -/
theorem clear_spares_exclusions (excludes : Option (List JStr)) (st : Storage)
    (h : (storageKeys st).Nodup) :
    (∀ k, mapGet k (clear excludes st) =
      if (clearExcludesArr excludes).contains k then mapGet k st else none) ∧
    mapGet (jstr "dynamicRouter") (clear excludes st) =
      mapGet (jstr "dynamicRouter") st ∧
    mapGet (jstr "serverDynamicRouter") (clear excludes st) =
      mapGet (jstr "serverDynamicRouter") st := by
  have hmain : ∀ k, mapGet k (clear excludes st) =
      if (clearExcludesArr excludes).contains k then mapGet k st else none := by
    intro k
    unfold clear
    by_cases hexc : (clearExcludesArr excludes).contains k
    · rw [if_pos hexc]
      refine foldl_mapDelete_not_mem _ _ (fun hc => ?_)
      have := List.of_mem_filter hc
      simp only [hexc, Bool.not_true] at this
      exact Bool.noConfusion this
    · rw [if_neg hexc]
      by_cases hmem : k ∈ storageKeys st
      · refine foldl_mapDelete_mem _ _ h ?_
        refine List.mem_filter.2 ⟨hmem, ?_⟩
        simp only [hexc, Bool.not_false]
      · rw [foldl_mapDelete_not_mem]
        · exact mapGet_eq_none_of_not_mem hmem
        · exact fun hc => hmem (List.mem_of_mem_filter hc)
  refine ⟨hmain, ?_, ?_⟩
  · rw [hmain (jstr "dynamicRouter"), if_pos]
    cases excludes <;> simp [clearExcludesArr]
  · rw [hmain (jstr "serverDynamicRouter"), if_pos]
    cases excludes <;> simp [clearExcludesArr]

/-! ## Claim C5: storage set-then-get round trip -/

theorem parseStringBody_escape (s rest : JStr) :
    parseStringBody (escapeChars s ++ '"' :: rest) = some (s, rest) := by
  induction s with
  | nil =>
    show parseStringBody ('"' :: rest) = _
    rw [parseStringBody.eq_def]
    simp
  | cons c s ih =>
    by_cases hc : c = '"' ∨ c = '\\'
    · have hesc : escapeChars (c :: s) = '\\' :: c :: escapeChars s := by
        rcases hc with hc | hc <;> simp [escapeChars, hc]
      rw [hesc]
      show parseStringBody ('\\' :: (c :: (escapeChars s ++ '"' :: rest))) = _
      rw [parseStringBody.eq_def]
      simp [ih]
    · push_neg at hc
      have hesc : escapeChars (c :: s) = c :: escapeChars s := by
        simp [escapeChars, hc.1, hc.2]
      rw [hesc]
      show parseStringBody (c :: (escapeChars s ++ '"' :: rest)) = _
      rw [parseStringBody.eq_def]
      simp only []
      rw [if_neg (by simpa using hc.1), if_neg (by simpa using hc.2)]
      simp [ih]

theorem digitToChar_isDigit {d : Nat} (h : d < 10) :
    (digitToChar d).isDigit = true := by
  interval_cases d <;> decide

theorem digitVal_digitToChar {d : Nat} (h : d < 10) :
    digitVal (digitToChar d) = d := by
  interval_cases d <;> decide

theorem natToChars_all_digit (n : Nat) :
    (natToChars n).all Char.isDigit = true := by
  unfold natToChars
  by_cases h : n = 0
  · simp [h]
  · simp only [h, if_false, List.all_eq_true]
    intro c hc
    obtain ⟨d, hd, rfl⟩ := List.mem_map.1 hc
    exact digitToChar_isDigit
      (Nat.digits_lt_base (by norm_num) (List.mem_reverse.1 hd))

theorem natToChars_ne_nil (n : Nat) : natToChars n ≠ [] := by
  unfold natToChars
  by_cases h : n = 0
  · simp [h]
  · simp only [h, if_false]
    intro hc
    rw [List.map_eq_nil_iff, List.reverse_eq_nil_iff] at hc
    exact h (Nat.digits_eq_nil_iff_eq_zero.1 hc)

theorem foldl_digitVal_reverse (L : List Nat) (h : ∀ d ∈ L, d < 10) :
    ((L.reverse.map digitToChar).foldl (fun acc c => acc * 10 + digitVal c) 0) =
      Nat.ofDigits 10 L := by
  induction L with
  | nil => simp [Nat.ofDigits]
  | cons d L ih =>
    have hd : d < 10 := h d (List.mem_cons_self d L)
    have hL : ∀ x ∈ L, x < 10 := fun x hx => h x (List.mem_cons_of_mem d hx)
    simp only [List.reverse_cons, List.map_append, List.map_cons, List.map_nil,
      List.foldl_append, List.foldl_cons, List.foldl_nil]
    rw [ih hL, digitVal_digitToChar hd, Nat.ofDigits_cons]
    ring

theorem takeWhile_append_all {p : Char → Bool} {l : List Char} (r : List Char)
    (h : l.all p = true) : (l ++ r).takeWhile p = l ++ r.takeWhile p := by
  induction l with
  | nil => simp
  | cons c l ih =>
    simp only [List.all_cons, Bool.and_eq_true] at h
    simp [List.takeWhile_cons, h.1, ih h.2]

theorem dropWhile_append_all {p : Char → Bool} {l : List Char} (r : List Char)
    (h : l.all p = true) : (l ++ r).dropWhile p = r.dropWhile p := by
  induction l with
  | nil => simp
  | cons c l ih =>
    simp only [List.all_cons, Bool.and_eq_true] at h
    simp [List.dropWhile_cons, h.1, ih h.2]

/-- Nothing after the serialized number may start with a digit. -/
def numBoundary (rest : JStr) : Prop :=
  ∀ c, rest.head? = some c → c.isDigit = false

theorem takeWhile_of_numBoundary {rest : JStr} (h : numBoundary rest) :
    rest.takeWhile Char.isDigit = [] := by
  cases rest with
  | nil => rfl
  | cons c t => simp [List.takeWhile_cons, h c rfl]

theorem dropWhile_of_numBoundary {rest : JStr} (h : numBoundary rest) :
    rest.dropWhile Char.isDigit = rest := by
  cases rest with
  | nil => rfl
  | cons c t => simp [List.dropWhile_cons, h c rfl]

theorem parseDigits_natToChars (n : Nat) (rest : JStr) (h : numBoundary rest) :
    parseDigits (natToChars n ++ rest) = some (n, rest) := by
  unfold parseDigits
  rw [takeWhile_append_all rest (natToChars_all_digit n),
    takeWhile_of_numBoundary h, dropWhile_append_all rest (natToChars_all_digit n),
    dropWhile_of_numBoundary h, List.append_nil]
  rw [if_neg (by simpa [List.isEmpty_iff] using natToChars_ne_nil n)]
  congr 1
  refine Prod.ext ?_ rfl
  show (natToChars n).foldl (fun acc c => acc * 10 + digitVal c) 0 = n
  unfold natToChars
  by_cases h0 : n = 0
  · simp [h0, digitVal]
  · simp only [h0, if_false]
    rw [foldl_digitVal_reverse _
      (fun d hd => Nat.digits_lt_base (by norm_num) hd)]
    exact Nat.ofDigits_digits 10 n

/-- Witness for C10 at a concrete storage. -/
theorem clear_spares_exclusions_witness :
    mapGet (jstr "dynamicRouter")
        (clear none [(jstr "dynamicRouter", jstr "1"), (jstr "x", jstr "2")]) =
      mapGet (jstr "dynamicRouter")
        [(jstr "dynamicRouter", jstr "1"), (jstr "x", jstr "2")] :=
  (clear_spares_exclusions none
    [(jstr "dynamicRouter", jstr "1"), (jstr "x", jstr "2")] (by decide)).2.1

/-! ### Parsing back what `jsonStringify` wrote (claim C5, continued) -/

theorem parseValue_null (fuel : Nat) (rest : JStr) :
    parseValue (fuel + 1) (jstr "null" ++ rest) = some (JValue.null, rest) := by
  rw [parseValue.eq_def]
  simp [jstr, jsStartsWith, List.isPrefixOf]

theorem parseValue_true (fuel : Nat) (rest : JStr) :
    parseValue (fuel + 1) (jstr "true" ++ rest) = some (JValue.boolean true, rest) := by
  rw [parseValue.eq_def]
  simp [jstr, jsStartsWith, List.isPrefixOf]

theorem parseValue_false (fuel : Nat) (rest : JStr) :
    parseValue (fuel + 1) (jstr "false" ++ rest) =
      some (JValue.boolean false, rest) := by
  rw [parseValue.eq_def]
  simp [jstr, jsStartsWith, List.isPrefixOf]

theorem parseValue_arrEmpty (fuel : Nat) (rest : JStr) :
    parseValue (fuel + 1) (jstr "[]" ++ rest) = some (JValue.arr [], rest) := by
  rw [parseValue.eq_def]
  simp [jstr, jsStartsWith, List.isPrefixOf]

theorem parseValue_objEmpty (fuel : Nat) (rest : JStr) :
    parseValue (fuel + 1) (jstr "\x7b\x7d" ++ rest) = some (JValue.obj [], rest) := by
  rw [parseValue.eq_def]
  simp [jstr, jsStartsWith, List.isPrefixOf]

theorem parseValue_str (fuel : Nat) (s rest : JStr) :
    parseValue (fuel + 1) ('"' :: (escapeChars s ++ '"' :: rest)) =
      some (JValue.str s, rest) := by
  rw [parseValue.eq_def]
  simp [parseStringBody_escape]

theorem natToChars_head (n : Nat) :
    ∃ d t, d < 10 ∧ natToChars n = digitToChar d :: t := by
  unfold natToChars
  by_cases h : n = 0
  · exact ⟨0, [], by norm_num, by simp [h, digitToChar]⟩
  · cases hd : (Nat.digits 10 n).reverse with
    | nil =>
      rw [List.reverse_eq_nil_iff] at hd
      exact absurd (Nat.digits_eq_nil_iff_eq_zero.1 hd) h
    | cons d ds =>
      have hmem : d ∈ Nat.digits 10 n := by
        rw [← List.mem_reverse, hd]
        exact List.mem_cons_self d ds
      exact ⟨d, ds.map digitToChar, Nat.digits_lt_base (by norm_num) hmem,
        by simp [h, hd]⟩

theorem parseNumber_intToChars (i : Int) (rest : JStr) (h : numBoundary rest) :
    parseNumber (intToChars i ++ rest) = some (i, rest) := by
  cases i with
  | ofNat n =>
    obtain ⟨d, t, hd10, hct⟩ := natToChars_head n
    have hcond : ((natToChars n ++ rest).head? == some '-') = false := by
      rw [hct]
      simp only [List.cons_append, List.head?_cons, beq_eq_false_iff_ne, ne_eq,
        Option.some.injEq]
      intro hc
      have := digitToChar_isDigit hd10
      rw [hc] at this
      exact Bool.noConfusion this
    show parseNumber (natToChars n ++ rest) = _
    unfold parseNumber
    rw [hcond]
    simp only [Bool.false_eq_true, if_false]
    rw [parseDigits_natToChars n rest h]
    rfl
  | negSucc m =>
    show parseNumber ('-' :: (natToChars (m + 1) ++ rest)) = _
    unfold parseNumber
    simp only [List.head?_cons, beq_self_eq_true, if_true, List.drop_succ_cons,
      List.drop_zero]
    rw [parseDigits_natToChars (m + 1) rest h]
    simp only [Option.map_some', Option.some.injEq, Prod.mk.injEq]
    refine ⟨?_, trivial⟩
    rw [Int.negSucc_eq]
    push_cast
    ring

/-- The first character a serialized JSON value can start with. -/
def jsonStartChars : List Char :=
  ['n', 't', 'f', '"', '[', '\x7b', '-',
   '0', '1', '2', '3', '4', '5', '6', '7', '8', '9']

theorem jsonStringify_head (v : JValue) :
    ∃ c t, jsonStringify v = c :: t ∧ c ∈ jsonStartChars := by
  cases v with
  | null => exact ⟨'n', jstr "ull", by simp [jsonStringify, jstr], by decide⟩
  | boolean b =>
    cases b
    · exact ⟨'f', jstr "alse", by simp [jsonStringify, jstr], by decide⟩
    · exact ⟨'t', jstr "rue", by simp [jsonStringify, jstr], by decide⟩
  | num i =>
    cases i with
    | ofNat n =>
      obtain ⟨d, t, hd10, hct⟩ := natToChars_head n
      refine ⟨digitToChar d, t, by simp [jsonStringify, intToChars, hct], ?_⟩
      interval_cases d <;> decide
    | negSucc m =>
      exact ⟨'-', natToChars (m + 1), by simp [jsonStringify, intToChars], by decide⟩
  | str s =>
    exact ⟨'"', escapeChars s ++ ['"'], by simp [jsonStringify], by decide⟩
  | arr elems =>
    exact ⟨'[', stringifyElems elems ++ [']'], by simp [jsonStringify], by decide⟩
  | obj members =>
    exact ⟨'\x7b', stringifyMembers members ++ ['\x7d'], by simp [jsonStringify],
      by decide⟩

mutual

/-- Fuel sufficient for `parseValue` on a serialized value. -/
def jfuel : JValue → Nat
  | .null => 1
  | .boolean _ => 1
  | .num _ => 1
  | .str _ => 1
  | .arr elems => 1 + jfuelElems elems
  | .obj members => 1 + jfuelMembers members

/-- Fuel sufficient for `parseElems` on serialized array elements. -/
def jfuelElems : List JValue → Nat
  | [] => 1
  | v :: rest => 1 + jfuel v + jfuelElems rest

/-- Fuel sufficient for `parseMembers` on serialized object members. -/
def jfuelMembers : List (JStr × JValue) → Nat
  | [] => 1
  | (_, v) :: rest => 1 + jfuel v + jfuelMembers rest

end

theorem jfuel_pos (v : JValue) : 1 ≤ jfuel v := by
  cases v <;> simp_arith [jfuel]

theorem jfuelElems_pos (es : List JValue) : 1 ≤ jfuelElems es := by
  cases es <;> simp_arith [jfuelElems]

theorem jfuelMembers_pos (ms : List (JStr × JValue)) : 1 ≤ jfuelMembers ms := by
  cases ms with
  | nil => simp_arith [jfuelMembers]
  | cons m ms => obtain ⟨k, v⟩ := m; simp_arith [jfuelMembers]

theorem stringifyElems_head (e : JValue) (es : List JValue) :
    ∃ c t, stringifyElems (e :: es) = c :: t ∧ c ∈ jsonStartChars := by
  obtain ⟨c, t0, hct, hmem⟩ := jsonStringify_head e
  cases es with
  | nil => exact ⟨c, t0, by simp [stringifyElems, hct], hmem⟩
  | cons e2 es2 =>
    exact ⟨c, t0 ++ ',' :: stringifyElems (e2 :: es2),
      by simp [stringifyElems, hct], hmem⟩

/-- One character of lookahead cannot be a digit. -/
theorem numBoundary_cons {c : Char} (h : c.isDigit = false) (t : JStr) :
    numBoundary (c :: t) := by
  intro c2 hc2
  simp only [List.head?_cons, Option.some.injEq] at hc2
  rw [← hc2]
  exact h

theorem parseValue_succ_cons (fuel : Nat) (c : Char) (rest : JStr) :
    parseValue (fuel + 1) (c :: rest) =
      (if c = 'n' && jsStartsWith rest (jstr "ull") then
        some (JValue.null, rest.drop 3)
      else if c = 't' && jsStartsWith rest (jstr "rue") then
        some (JValue.boolean true, rest.drop 3)
      else if c = 'f' && jsStartsWith rest (jstr "alse") then
        some (JValue.boolean false, rest.drop 4)
      else if c = '"' then
        (parseStringBody rest).map (fun q => (JValue.str q.1, q.2))
      else if c = '[' then
        if rest.head? == some ']' then some (JValue.arr [], rest.drop 1)
        else (parseElems fuel rest).map (fun q => (JValue.arr q.1, q.2))
      else if c = '\x7b' then
        if rest.head? == some '\x7d' then some (JValue.obj [], rest.drop 1)
        else (parseMembers fuel rest).map (fun q => (JValue.obj q.1, q.2))
      else (parseNumber (c :: rest)).map (fun q => (JValue.num q.1, q.2))) := by
  rw [parseValue.eq_def]

theorem parseElems_succ (fuel : Nat) (s : JStr) :
    parseElems (fuel + 1) s =
      (match parseValue fuel s with
      | none => none
      | some (v, rest) =>
        if rest.head? == some ',' then
          (parseElems fuel (rest.drop 1)).map (fun q => (v :: q.1, q.2))
        else if rest.head? == some ']' then some ([v], rest.drop 1)
        else none) := by
  rw [parseElems.eq_def]

theorem parseMembers_succ_cons (fuel : Nat) (c : Char) (rest : JStr) :
    parseMembers (fuel + 1) (c :: rest) =
      (if c = '"' then
        match parseStringBody rest with
        | none => none
        | some (key, rest2) =>
          if rest2.head? == some ':' then
            match parseValue fuel (rest2.drop 1) with
            | none => none
            | some (v, rest4) =>
              if rest4.head? == some ',' then
                (parseMembers fuel (rest4.drop 1)).map
                  (fun q => ((key, v) :: q.1, q.2))
              else if rest4.head? == some '\x7d' then
                some ([(key, v)], rest4.drop 1)
              else none
          else none
      else none) := by
  rw [parseMembers.eq_def]

theorem parseValue_arrCons (fuel : Nat) (c : Char) (t rest2 : JStr)
    (hmem : c ∈ jsonStartChars) :
    parseValue (fuel + 1) ('[' :: (c :: (t ++ rest2))) =
      (parseElems fuel (c :: (t ++ rest2))).map
        (fun q => (JValue.arr q.1, q.2)) := by
  rw [parseValue_succ_cons]
  fin_cases hmem <;> simp

theorem stringifyMembers_head (k : JStr) (v : JValue)
    (ms : List (JStr × JValue)) :
    ∃ t, stringifyMembers ((k, v) :: ms) = '"' :: t := by
  cases ms with
  | nil => exact ⟨escapeChars k ++ ['"', ':'] ++ jsonStringify v, by
      simp [stringifyMembers]⟩
  | cons m2 ms2 =>
    exact ⟨(escapeChars k ++ ['"', ':'] ++ jsonStringify v) ++
      ',' :: stringifyMembers (m2 :: ms2), by simp [stringifyMembers]⟩

theorem parseValue_objCons (fuel : Nat) (t rest2 : JStr) :
    parseValue (fuel + 1) ('\x7b' :: ('"' :: (t ++ rest2))) =
      (parseMembers fuel ('"' :: (t ++ rest2))).map
        (fun q => (JValue.obj q.1, q.2)) := by
  rw [parseValue_succ_cons]
  simp

/-- The serialized-value roundtrip, proved for the value parser, the
array-elements parser and the object-members parser simultaneously by
induction on the fuel. -/
theorem parse_roundtrip (fuel : Nat) :
    (∀ (v : JValue) (rest : JStr), jfuel v ≤ fuel → numBoundary rest →
      parseValue fuel (jsonStringify v ++ rest) = some (v, rest)) ∧
    (∀ (es : List JValue) (rest : JStr), es ≠ [] → jfuelElems es ≤ fuel →
      parseElems fuel (stringifyElems es ++ ']' :: rest) = some (es, rest)) ∧
    (∀ (ms : List (JStr × JValue)) (rest : JStr), ms ≠ [] →
      jfuelMembers ms ≤ fuel →
      parseMembers fuel (stringifyMembers ms ++ '\x7d' :: rest) =
        some (ms, rest)) := by
  induction fuel with
  | zero =>
    refine ⟨fun v rest hf _ => ?_, fun es rest hne hf => ?_,
      fun ms rest hne hf => ?_⟩
    · exact absurd (Nat.le_zero.1 hf) (by have := jfuel_pos v; omega)
    · exact absurd (Nat.le_zero.1 hf) (by have := jfuelElems_pos es; omega)
    · exact absurd (Nat.le_zero.1 hf) (by have := jfuelMembers_pos ms; omega)
  | succ fuel ih =>
    obtain ⟨ihV, ihE, ihM⟩ := ih
    refine ⟨?_, ?_, ?_⟩
    · intro v rest hf hb
      cases v with
      | null =>
        rw [show jsonStringify JValue.null = jstr "null" from by simp [jsonStringify]]
        exact parseValue_null fuel rest
      | boolean b =>
        cases b
        · rw [show jsonStringify (JValue.boolean false) = jstr "false" from by
            simp [jsonStringify]]
          exact parseValue_false fuel rest
        · rw [show jsonStringify (JValue.boolean true) = jstr "true" from by
            simp [jsonStringify]]
          exact parseValue_true fuel rest
      | num i =>
        obtain ⟨c, t, hct, hmem⟩ :
            ∃ c t, intToChars i = c :: t ∧
              c ∈ ['-', '0', '1', '2', '3', '4', '5', '6', '7', '8', '9'] := by
          cases i with
          | ofNat n =>
            obtain ⟨d, t, hd10, hct⟩ := natToChars_head n
            refine ⟨digitToChar d, t, by simp [intToChars, hct], ?_⟩
            interval_cases d <;> decide
          | negSucc m => exact ⟨'-', natToChars (m + 1), rfl, by decide⟩
        have hr : jsonStringify (JValue.num i) ++ rest = c :: (t ++ rest) := by
          simp [jsonStringify, hct]
        have hback : c :: (t ++ rest) = intToChars i ++ rest := by
          rw [hct]
          rfl
        rw [hr, parseValue_succ_cons]
        fin_cases hmem <;>
          simp [hback, parseNumber_intToChars i rest hb]
      | str s =>
        rw [show jsonStringify (JValue.str s) ++ rest =
            '"' :: (escapeChars s ++ '"' :: rest) from by simp [jsonStringify]]
        exact parseValue_str fuel s rest
      | arr elems =>
        cases elems with
        | nil =>
          rw [show jsonStringify (JValue.arr []) = jstr "[]" from by
            simp [jsonStringify, stringifyElems, jstr]]
          exact parseValue_arrEmpty fuel rest
        | cons e es =>
          have hfe : jfuelElems (e :: es) ≤ fuel := by
            simp only [jfuel] at hf
            omega
          obtain ⟨c, t, hct, hmem⟩ := stringifyElems_head e es
          have hr : jsonStringify (JValue.arr (e :: es)) ++ rest =
              '[' :: (c :: (t ++ ']' :: rest)) := by
            simp [jsonStringify, hct]
          have hback : c :: (t ++ ']' :: rest) =
              stringifyElems (e :: es) ++ ']' :: rest := by
            rw [hct]
            rfl
          rw [hr, parseValue_arrCons fuel c t (']' :: rest) hmem, hback,
            ihE (e :: es) rest (by simp) hfe]
          rfl
      | obj members =>
        cases members with
        | nil =>
          rw [show jsonStringify (JValue.obj []) = jstr "\x7b\x7d" from by
            simp [jsonStringify, stringifyMembers, jstr]]
          exact parseValue_objEmpty fuel rest
        | cons m ms =>
          obtain ⟨k, v⟩ := m
          have hfm : jfuelMembers ((k, v) :: ms) ≤ fuel := by
            simp only [jfuel] at hf
            omega
          obtain ⟨t, hmt⟩ := stringifyMembers_head k v ms
          have hr : jsonStringify (JValue.obj ((k, v) :: ms)) ++ rest =
              '\x7b' :: ('"' :: (t ++ '\x7d' :: rest)) := by
            simp [jsonStringify, hmt]
          have hback : '"' :: (t ++ '\x7d' :: rest) =
              stringifyMembers ((k, v) :: ms) ++ '\x7d' :: rest := by
            rw [hmt]
            rfl
          rw [hr, parseValue_objCons fuel t ('\x7d' :: rest), hback,
            ihM ((k, v) :: ms) rest (by simp) hfm]
          rfl
    · intro es rest hne hf
      cases es with
      | nil => exact absurd rfl hne
      | cons v es =>
        cases es with
        | nil =>
          have hfv : jfuel v ≤ fuel := by
            simp only [jfuelElems] at hf
            omega
          have h1 : stringifyElems [v] ++ ']' :: rest =
              jsonStringify v ++ ']' :: rest := by simp [stringifyElems]
          rw [h1, parseElems_succ,
            ihV v (']' :: rest) hfv (numBoundary_cons (by decide) rest)]
          simp
        | cons e2 es2 =>
          have hfv : jfuel v ≤ fuel := by
            simp only [jfuelElems] at hf
            omega
          have hfe : jfuelElems (e2 :: es2) ≤ fuel := by
            simp only [jfuelElems] at hf ⊢
            omega
          have h1 : stringifyElems (v :: e2 :: es2) ++ ']' :: rest =
              jsonStringify v ++
                ',' :: (stringifyElems (e2 :: es2) ++ ']' :: rest) := by
            simp [stringifyElems]
          rw [h1, parseElems_succ,
            ihV v _ hfv (numBoundary_cons (by decide) _)]
          simp [ihE (e2 :: es2) rest (by simp) hfe]
    · intro ms rest hne hf
      cases ms with
      | nil => exact absurd rfl hne
      | cons m ms =>
        obtain ⟨k, v⟩ := m
        have hfv : jfuel v ≤ fuel := by
          simp only [jfuelMembers] at hf
          omega
        cases ms with
        | nil =>
          have h1 : stringifyMembers [(k, v)] ++ '\x7d' :: rest =
              '"' :: (escapeChars k ++
                '"' :: (':' :: (jsonStringify v ++ '\x7d' :: rest))) := by
            simp [stringifyMembers]
          rw [h1, parseMembers_succ_cons]
          simp only [if_pos rfl]
          rw [parseStringBody_escape k
            (':' :: (jsonStringify v ++ '\x7d' :: rest))]
          simp only [List.head?_cons, List.drop_succ_cons, List.drop_zero]
          rw [show ((some ':' == some ':') = true) from by decide]
          simp only [if_true]
          rw [ihV v ('\x7d' :: rest) hfv (numBoundary_cons (by decide) rest)]
          simp
        | cons m2 ms2 =>
          have hfm : jfuelMembers (m2 :: ms2) ≤ fuel := by
            obtain ⟨k2, v2⟩ := m2
            simp only [jfuelMembers] at hf ⊢
            omega
          have h1 : stringifyMembers ((k, v) :: m2 :: ms2) ++ '\x7d' :: rest =
              '"' :: (escapeChars k ++ '"' :: (':' :: (jsonStringify v ++
                ',' :: (stringifyMembers (m2 :: ms2) ++ '\x7d' :: rest)))) := by
            simp [stringifyMembers]
          rw [h1, parseMembers_succ_cons]
          simp only [if_pos rfl]
          rw [parseStringBody_escape k (':' :: (jsonStringify v ++
            ',' :: (stringifyMembers (m2 :: ms2) ++ '\x7d' :: rest)))]
          simp only [List.head?_cons, List.drop_succ_cons, List.drop_zero]
          rw [show ((some ':' == some ':') = true) from by decide]
          simp only [if_true]
          rw [ihV v _ hfv (numBoundary_cons (by decide) _)]
          simp [ihM (m2 :: ms2) rest (by simp) hfm]

theorem jvalue_sizeOf_pos (v : JValue) : 1 ≤ sizeOf v := by
  cases v <;> simp_arith

theorem intToChars_ne_nil (i : Int) : intToChars i ≠ [] := by
  cases i with
  | ofNat n => exact natToChars_ne_nil n
  | negSucc m => simp [intToChars]

/-- The parsing fuel a value needs is within twice its serialized
length. -/
theorem jfuel_le_aux : ∀ (N : Nat),
    (∀ v : JValue, sizeOf v ≤ N →
      jfuel v ≤ 2 * (jsonStringify v).length) ∧
    (∀ es : List JValue, sizeOf es ≤ N →
      jfuelElems es ≤ 2 * (stringifyElems es).length + 2) ∧
    (∀ ms : List (JStr × JValue), sizeOf ms ≤ N →
      jfuelMembers ms ≤ 2 * (stringifyMembers ms).length + 2) := by
  intro N
  induction N with
  | zero =>
    refine ⟨fun v hv => ?_, fun es hes => ?_, fun ms hms => ?_⟩
    · have := jvalue_sizeOf_pos v
      omega
    · cases es <;> simp_arith at hes
    · cases ms <;> simp_arith at hms
  | succ N ih =>
    obtain ⟨ihV, ihE, ihM⟩ := ih
    refine ⟨fun v hv => ?_, fun es hes => ?_, fun ms hms => ?_⟩
    · cases v with
      | null => simp [jfuel, jsonStringify, jstr]
      | boolean b => cases b <;> simp [jfuel, jsonStringify, jstr]
      | num i =>
        have hlen : 1 ≤ (intToChars i).length :=
          List.length_pos.2 (intToChars_ne_nil i)
        simp only [jfuel, jsonStringify]
        omega
      | str s =>
        simp only [jfuel, jsonStringify, List.length_cons]
        omega
      | arr elems =>
        have helems : sizeOf elems ≤ N := by
          simp_arith at hv
          omega
        have := ihE elems helems
        simp only [jfuel, jsonStringify, List.length_cons, List.length_append,
          List.length_singleton]
        omega
      | obj members =>
        have hmembers : sizeOf members ≤ N := by
          simp_arith at hv
          omega
        have := ihM members hmembers
        simp only [jfuel, jsonStringify, List.length_cons, List.length_append,
          List.length_singleton]
        omega
    · cases es with
      | nil => simp [jfuelElems, stringifyElems]
      | cons v es =>
        have hv : sizeOf v ≤ N := by
          simp_arith at hes
          omega
        have hrest : sizeOf es ≤ N := by
          simp_arith at hes
          omega
        have h1 := ihV v hv
        cases es with
        | nil =>
          simp only [jfuelElems, stringifyElems]
          omega
        | cons e2 es2 =>
          have h2 := ihE (e2 :: es2) hrest
          simp only [jfuelElems, stringifyElems, List.length_append,
            List.length_cons] at h2 ⊢
          omega
    · cases ms with
      | nil => simp [jfuelMembers, stringifyMembers]
      | cons m ms =>
        obtain ⟨k, v⟩ := m
        have hv : sizeOf v ≤ N := by
          simp_arith at hms
          omega
        have hrest : sizeOf ms ≤ N := by
          simp_arith at hms
          omega
        have h1 := ihV v hv
        cases ms with
        | nil =>
          simp only [jfuelMembers, stringifyMembers, List.length_cons,
            List.length_append]
          omega
        | cons m2 ms2 =>
          have h2 := ihM (m2 :: ms2) hrest
          obtain ⟨k2, v2⟩ := m2
          simp only [jfuelMembers, stringifyMembers, List.length_append,
            List.length_cons] at h2 ⊢
          omega

theorem skipWs_stringify (v : JValue) :
    skipWs (jsonStringify v) = jsonStringify v := by
  obtain ⟨c, t, hct, hmem⟩ := jsonStringify_head v
  have hws : isJsWhitespace c = false := by fin_cases hmem <;> decide
  rw [hct]
  unfold skipWs
  rw [List.dropWhile_cons]
  simp [hws]

/-- `JSON.parse` inverts `JSON.stringify`. -/
theorem jsonParse_stringify (v : JValue) :
    jsonParse (jsonStringify v) = some v := by
  unfold jsonParse
  rw [skipWs_stringify]
  have hf : jfuel v ≤ 2 * (jsonStringify v).length + 2 := by
    have := (jfuel_le_aux (sizeOf v)).1 v (Nat.le_refl _)
    omega
  have h := (parse_roundtrip (2 * (jsonStringify v).length + 2)).1 v []
    hf (fun c hc => by cases hc)
  rw [List.append_nil] at h
  rw [h]
  rfl

/-- **C5.** For every key, every JSON value and every storage content:
`setStorage` writes under the key the JSON string of the
`{type, value}` wrapper (where `type` is the runtime type name), a
subsequent `getStorage` of the same key returns exactly the stored
value, and `getStorage` on an empty storage returns null. -/
theorem setStorage_getStorage_roundtrip (key : JStr) (value : JValue)
    (st : Storage) :
    mapGet key (setStorage key value st) =
      some (jsonStringify (wrapperObj value)) ∧
    getStorage key (setStorage key value st) = some value ∧
    getStorage key ([] : Storage) = none := by
  refine ⟨mapGet_mapSet_self _ _ _, ?_, rfl⟩
  unfold getStorage setStorage
  rw [mapGet_mapSet_self]
  have hne : (jsonStringify (wrapperObj value)).isEmpty = false := by
    obtain ⟨c, t, hct, -⟩ := jsonStringify_head (wrapperObj value)
    rw [hct]
    rfl
  simp only [hne, Bool.false_eq_true, if_false, jsonParse_stringify]
  simp [wrapperObj, lookupMember]

end VEPA
